import Mathlib

/-!
# Verification of cpy's path-resolution and destination-mapping engine

This file shallowly embeds the path-resolution, destination-mapping,
rename, progress-aggregation and entry-filtering logic of `cpy`
(`index.js`, `glob-pattern.js`) and proves or refutes the frozen claims
about it.

## Path encoding

The program manipulates POSIX path strings through Node's `path` module
(the model fixes the platform to POSIX, `path.sep = '/'`, as the code
itself normalizes every pattern to forward slashes).  A path string is
represented by the (nonempty) list of its '/'-separated chunks, each
chunk being slash-free:

  "a/b/c"   ↦ ["a", "b", "c"]
  "/a/b"    ↦ ["", "a", "b"]
  ""        ↦ [""]
  "/"       ↦ ["", ""]
  "a/"      ↦ ["a", ""]

`String.intercalate "/"` is a bijection from such lists onto path
strings, so this encoding is a faithful re-coding of the strings the
program works with; string concatenation `a ++ "/" ++ b` becomes list
append, `startsWith "/"` becomes "first chunk empty and ≥ 2 chunks",
and so on.  All Node `path` primitives below are translated chunk-wise
from Node's POSIX implementations.
-/

namespace Cpy

/-- A POSIX path string, encoded as its list of '/'-separated chunks
(nonempty; each chunk contains no '/'). -/
abbrev PathStr := List String

/-- The empty path string `""`. -/
def emptyPath : PathStr := [""]

/-- `p.startsWith "/"` on the underlying string: first chunk is empty and
there is at least one separator. Node `path.posix.isAbsolute`. -/
def isAbsolute (p : PathStr) : Bool :=
  match p with
  | x :: _ :: _ => x = ""
  | _ => false

/-- Whether the underlying string ends with `'/'`. -/
def endsWithSep (p : PathStr) : Bool :=
  match p.getLast? with
  | some s => if s = "" ∧ 2 ≤ p.length then true else false
  | none => false

/-- A path segment that is kept verbatim by Node's `normalizeString`:
not empty, not `"."`, not `".."`. -/
def Seg.Clean (s : String) : Prop := s ≠ "" ∧ s ≠ "." ∧ s ≠ ".."

instance : DecidablePred Seg.Clean := fun s => by
  unfold Seg.Clean; infer_instance

/-- One step of Node's `normalizeString` (the shared worker of
`normalize`, `resolve` and `join`): the accumulator holds the already
emitted segments in reverse order.  Empty and `"."` segments are
dropped; `".."` pops the last emitted segment unless it is itself a
`".."` (or nothing has been emitted), in which case it is kept only when
`allowAboveRoot` is set. -/
def normStep (allowAboveRoot : Bool) (acc : List String) (s : String) : List String :=
  if s = "" ∨ s = "." then acc
  else if s = ".." then
    match acc with
    | [] => if allowAboveRoot then [".."] else []
    | last :: rest => if last = ".." then (if allowAboveRoot then ".." :: acc else acc) else rest
  else s :: acc

/-- Node `normalizeString(path, allowAboveRoot, '/')`, as a list of
segments (in order).  The result contains no `""`/`"."` segments and
`".."` only as a leading run (and only when `allowAboveRoot`). -/
def normSegs (allowAboveRoot : Bool) (p : List String) : List String :=
  (p.foldl (normStep allowAboveRoot) []).reverse

/-- Node `path.posix.normalize`. -/
def normalize (p : PathStr) : PathStr :=
  if p = emptyPath then ["."]
  else
    let isAbs := isAbsolute p
    let trailing := endsWithSep p
    let core := normSegs (!isAbs) p
    if core = [] then
      if isAbs then ["", ""] else if trailing then [".", ""] else ["."]
    else
      let core' := if trailing then core ++ [""] else core
      if isAbs then "" :: core' else core'

/-- Node `path.posix.resolve(base, p)` for an absolute `base` (every
call site in cpy resolves against an absolute cwd).  If `p` is absolute
the base is ignored; the concatenation is normalized with
`allowAboveRoot = false` and the result is absolute with no trailing
separator. -/
def resolve (base p : PathStr) : PathStr :=
  let core := if isAbsolute p then normSegs false p else normSegs false (base ++ p)
  if core = [] then ["", ""] else "" :: core

/-- Node `path.posix.resolve(p)` for an absolute `p` (resolution against
the process cwd degenerates to normalization without trailing
separator). -/
def resolveAbs (p : PathStr) : PathStr :=
  let core := normSegs false p
  if core = [] then ["", ""] else "" :: core

/-- Node `path.posix.join`: drop empty-string arguments, concatenate the
rest with separators, normalize; `"."` when everything was empty. -/
def joinList (parts : List PathStr) : PathStr :=
  let nonempty := parts.filter (fun p => p ≠ emptyPath)
  match nonempty with
  | [] => ["."]
  | l => normalize l.flatten

/-- `path.join(a, b)`. -/
def join2 (a b : PathStr) : PathStr := joinList [a, b]

/-- `path.join(a, b, c)`. -/
def join3 (a b c : PathStr) : PathStr := joinList [a, b, c]

/-- Node `path.posix.basename` (no-suffix form): last non-empty chunk,
skipping trailing separators; `""` when there is none. -/
def basename (p : PathStr) : String :=
  match p.reverse.dropWhile (fun s => s = "") with
  | [] => ""
  | s :: _ => s

/-- Node `path.posix.dirname`, chunk-wise (including the `"//"` root
special case for inputs such as `"//a"`). -/
def dirname (p : PathStr) : PathStr :=
  if p = emptyPath then ["."]
  else
    let hasRoot := p.head? = some ""
    let trimmed := (p.reverse.dropWhile (fun s => s = "")).reverse
    match trimmed.dropLast with
    | [] => if hasRoot then ["", ""] else ["."]
    | front =>
      if front.all (fun s => s = "") then front ++ [""]
      else front

/-- Segments of the result of `resolve`/`resolveAbs`, after the root:
the canonical clean segment list of a path interpreted relative to
`cwd`.  (`resolve cwd p = "" :: canonSegs cwd p`, modulo the bare-root
encoding.) -/
def canonSegs (cwd p : PathStr) : List String :=
  if isAbsolute p then normSegs false p else normSegs false (cwd ++ p)

/-- Drop the longest common prefix of two segment lists, returning the
two remainders. -/
def dropCommon : List String → List String → List String × List String
  | a :: as, b :: bs => if a = b then dropCommon as bs else (a :: as, b :: bs)
  | as, bs => (as, bs)

/-- Node `path.posix.relative(from, to)`.  Node first resolves both
arguments against the process cwd; cpy only calls `relative` on
absolute arguments, for which that resolution is plain normalization,
which is what is embedded here (segment-wise: drop the common prefix of
the two resolved paths, emit one `".."` per remaining `from` segment,
then the remaining `to` segments). -/
def relative (f t : PathStr) : PathStr :=
  if f = t then emptyPath
  else
    let f' := resolveAbs f
    let t' := resolveAbs t
    if f' = t' then emptyPath
    else
      let fs := if f' = ["", ""] then [] else f'.tail
      let ts := if t' = ["", ""] then [] else t'.tail
      let (fr, tr) := dropCommon fs ts
      match fr.map (fun _ => "..") ++ tr with
      | [] => emptyPath
      | l => l

/-- The string `startsWith ".."` check used by the code on `relative`
results: the first chunk starts with the two characters `".."`. -/
def startsWithDotDot (p : PathStr) : Bool :=
  match p.head? with
  | some s =>
    match s.data with
    | '.' :: '.' :: _ => true
    | _ => false
  | none => false

end Cpy

namespace Cpy

/-!
## External glob classifier

`globby`'s `isDynamicPattern` (re-exported from fast-glob) is an
external collaborator; per the spec (§3) a pattern is dynamic when it
"contains glob metacharacters".  It is modeled as: some chunk contains
one of the magic characters `* ? [ { (`. -/

/-- Whether a single path segment contains a glob metacharacter. -/
def isDynSeg (s : String) : Bool :=
  s.data.any fun c => c = '*' ∨ c = '?' ∨ c = '[' ∨ c = '{' ∨ c = '('

/-- External `isDynamicPattern` (globby/fast-glob), modeled as the
presence of a glob metacharacter in some segment. -/
def isDynamicPattern (p : PathStr) : Bool := p.any isDynSeg

/-!
## GlobPattern (`glob-pattern.js`)

The constructor performs filesystem probes (existence, lstat, realpath)
to populate `isDirectory` / `symlinkTarget` / `symlinkRelative` and to
rewrite `path` to `dir/**` for directory patterns; the structure below
records the constructed fields, and theorems state the constructor's
guarantees as hypotheses where they matter. -/

structure GlobPatternM where
  /-- `originalPath`: the pattern as supplied (normalized to `/`). -/
  originalPath : PathStr
  /-- `path`: the posix-normalized pattern, rewritten to `dir/**` when
  the pattern is an existing directory. -/
  path : PathStr
  /-- `isDirectory`: literal pattern resolving to an existing directory. -/
  isDirectory : Bool := false
  /-- `symlinkTarget`: real path of a followed directory symlink. -/
  symlinkTarget : Option PathStr := none
  /-- `symlinkRelative`: the symlink's cwd-relative name, unless it
  starts with `..`. -/
  symlinkRelative : Option PathStr := none
deriving DecidableEq

/-- First chunk of the underlying string (for `startsWith` checks). -/
def strHead (p : PathStr) : String := p.headD ""

/-- `this.path.slice(1)`: drop the first character of the string. -/
def sliceOne (p : PathStr) : PathStr :=
  match p with
  | s :: rest => String.mk (s.data.drop 1) :: rest
  | [] => p

/-- The `normalizedPattern` local of `GlobPattern#normalizedPath`:
`path` with a leading `!` stripped unless it starts `!(`. -/
def GlobPatternM.normalizedPattern (g : GlobPatternM) : PathStr :=
  let startsBang : Bool :=
    match (strHead g.path).data with
    | '!' :: _ => true
    | _ => false
  let startsBangParen : Bool :=
    match (strHead g.path).data with
    | '!' :: '(' :: _ => true
    | _ => false
  if startsBang ∧ ¬ startsBangParen then sliceOne g.path
  else g.path

/-- `segments.slice(0, magicIndex)` of `GlobPattern#normalizedPath`:
the segments before the first magic segment, or all but the last
segment when there is none (JS `slice(0, -1)`). -/
def GlobPatternM.magicPrefix (g : GlobPatternM) : List String :=
  let segments := g.normalizedPattern
  match segments.findIdx? (fun s => s ≠ "" ∧ isDynSeg s) with
  | some i => segments.take i
  | none => segments.dropLast

/-- `GlobPattern#normalizedPath` getter: the "glob parent" — the
static prefix before the first magic segment, resolved against the cwd;
the cwd itself when that prefix is empty.  (`…join('/')` is falsy
exactly when the prefix encodes the empty string.) -/
def GlobPatternM.normalizedPath (g : GlobPatternM) (cwd : PathStr) : PathStr :=
  let pre := g.magicPrefix
  if pre = [] ∨ pre = [""] then cwd
  else if isAbsolute pre then normalize pre
  else normalize (join2 cwd pre)

/-- `GlobPattern#hasMagic()`: dynamic-ness of `path` under `flat`,
of `originalPath` otherwise. -/
def GlobPatternM.hasMagic (g : GlobPatternM) (flat : Bool) : Bool :=
  isDynamicPattern (if flat then g.path else g.originalPath)

/-!
## Entries and options (`index.js`)
-/

/-- An `Entry`: one matched source file.  On the modeled POSIX platform
the constructor's `split('/').join(path.sep)` is the identity. -/
structure Entry where
  path : PathStr
  relativePath : PathStr
  pattern : GlobPatternM
deriving DecidableEq

/-- `Entry#name`: `path.basename(this.path)`. -/
def Entry.name (e : Entry) : String := basename e.path

/-- The `base` option enum (`'cwd'` or `'pattern'`). -/
inductive BaseMode
  | cwd
  | pattern
deriving DecidableEq

/-- The option subset consumed by the modeled logic, after the
defaults merge (`flat: false`, `update: false`, `ignoreExisting:
false`) and `options.cwd = path.resolve(options.cwd)`. -/
structure Options where
  cwd : PathStr
  flat : Bool := false
  base : Option BaseMode := none
  update : Bool := false
  ignoreExisting : Bool := false
  overwrite : Option Bool := none
  dryRun : Bool := false

/-- The error taxonomy carried by `CpyError` / `TypeError` rejections
(distinguished by their message shapes in the code). -/
inductive CpyErr
  | typeError (msg : String)
  /-- `Refusing to copy to itself: \x7bpath\x7d`. -/
  | selfCopy (sourcePath : PathStr)
  /-- `Cannot copy \x7bpattern\x7d: the file doesn't exist`. -/
  | fileDoesNotExist (pattern : PathStr)
  /-- `Cannot glob \x7bpattern\x7d: \x7bmessage\x7d`. -/
  | globFailure (pattern : PathStr) (msg : String)
  /-- `Cannot copy from \x7bsource\x7d to \x7bdestination\x7d: ...`. -/
  | copyFailure (source destination : PathStr) (msg : String)
deriving DecidableEq

/-!
## Destination mapping (`index.js`)
-/

/-- `resolveCopyPath(filePath, cwd)`. -/
def resolveCopyPath (filePath cwd : PathStr) : PathStr :=
  if isAbsolute filePath then normalize filePath else resolve cwd filePath

/-- `isSelfCopy(from, to, cwd)`. -/
def isSelfCopy (f t cwd : PathStr) : Bool :=
  resolveCopyPath t cwd = resolveCopyPath f cwd

/-- `relativizeWithin(base, file)`: the relative path, unless it
starts with `..` or is absolute. -/
def relativizeWithin (base file : PathStr) : Option PathStr :=
  let relativePath := relative base file
  if startsWithDotDot relativePath ∨ isAbsolute relativePath then none
  else some relativePath

/-- `resolveRelativePath(bases, file)`: first base that contains the
file, else the file's basename. -/
def resolveRelativePath (bases : List PathStr) (file : PathStr) : PathStr :=
  match bases with
  | [] => [basename file]
  | b :: rest =>
    match relativizeWithin b file with
    | some r => r
    | none => resolveRelativePath rest file

/-- `resolveCwdRelativePathForGlob(entry, options)`. -/
def resolveCwdRelativePathForGlob (e : Entry) (o : Options) : PathStr :=
  match relativizeWithin o.cwd e.path with
  | some r => r
  | none =>
    let globParent := e.pattern.normalizedPath o.cwd
    match relativizeWithin globParent e.path with
    | some r =>
      let globParentBasename := basename globParent
      if globParentBasename = "" then r else join2 [globParentBasename] r
    | none => [basename e.path]

/-- `computeToForGlob({entry, destination, options})`.  `path.resolve(entry.path)`
resolves against the process cwd; entry paths are absolute (the matcher
returns absolute paths), where that is plain normalization
(`resolveAbs`).  The `alternativeRelativePath ? … : …` truthiness test
treats the empty string like `undefined`. -/
def computeToForGlob (e : Entry) (destination : PathStr) (o : Options) : PathStr :=
  if o.flat then
    if isAbsolute destination then join2 destination [e.name]
    else join3 o.cwd destination [e.name]
  else
    let fromPath := resolveAbs e.path
    let baseA := e.pattern.normalizedPath o.cwd
    let baseB := o.cwd
    let relativePath :=
      if o.base = some BaseMode.cwd then resolveCwdRelativePathForGlob e o
      else resolveRelativePath [baseA, baseB] e.path
    let toPath := join2 destination relativePath
    if isSelfCopy fromPath toPath o.cwd then
      let alternativeToPath :=
        match relativizeWithin baseB e.path with
        | some r =>
          if r = emptyPath then join2 destination [basename e.path] else join2 destination r
        | none => join2 destination [basename e.path]
      if isSelfCopy fromPath alternativeToPath o.cwd then join2 destination [basename e.path]
      else alternativeToPath
    else toPath

/-- The three fall-through returns of `computeToForNonGlob` after the
symlink check (lines 359-374): out-of-cwd directory nesting, flat
literal basename, cwd-relative mirroring with basename fallback. -/
def computeToForNonGlobAfterSymlink (e : Entry) (baseDestination : PathStr) (o : Options) :
    PathStr :=
  let relativeToCwd := relativizeWithin o.cwd e.path
  let insideCwd := relativeToCwd.isSome
  if e.pattern.isDirectory ∧ ¬ insideCwd then
    let originalDir := resolve o.cwd e.pattern.originalPath
    join3 baseDestination [basename originalDir] (relative originalDir e.path)
  else if ¬ e.pattern.isDirectory ∧ o.flat then
    join2 baseDestination [basename e.pattern.originalPath]
  else
    match relativeToCwd with
    | none => join2 baseDestination [e.name]
    | some r => join2 baseDestination r

/-- `computeToForNonGlob({entry, destination, options})`. -/
def computeToForNonGlob (e : Entry) (destination : PathStr) (o : Options) : PathStr :=
  let baseDestination :=
    if isAbsolute destination then destination else join2 o.cwd destination
  if o.base = some BaseMode.pattern then
    let patternBase :=
      if e.pattern.isDirectory then resolve o.cwd e.pattern.originalPath
      else resolve o.cwd (dirname e.pattern.originalPath)
    join2 baseDestination (resolveRelativePath [patternBase] e.path)
  else
    match e.pattern.symlinkTarget with
    | some target =>
      if e.pattern.isDirectory then
        let relativeToTarget := relative target e.path
        if ¬ startsWithDotDot relativeToTarget ∧ ¬ isAbsolute relativeToTarget then
          let symlinkBase := e.pattern.symlinkRelative.getD [basename e.pattern.originalPath]
          join3 baseDestination symlinkBase relativeToTarget
        else computeToForNonGlobAfterSymlink e baseDestination o
      else computeToForNonGlobAfterSymlink e baseDestination o
    | none => computeToForNonGlobAfterSymlink e baseDestination o

/-- `preprocessDestinationPath`. -/
def preprocessDestinationPath (e : Entry) (destination : PathStr) (o : Options) : PathStr :=
  if e.pattern.hasMagic o.flat then computeToForGlob e destination o
  else computeToForNonGlob e destination o

/-!
## Rename resolution (`index.js`)
-/

/-- `'/'` occurs in the underlying string iff there are ≥ 2 chunks. -/
def strIncludesSlash (p : PathStr) : Bool := p.length ≥ 2

/-- `'\\'` occurs in some chunk. -/
def strIncludesBackslash (p : PathStr) : Bool := p.any fun s => s.data.contains '\\'

/-- `assertBasename(name, label)`: rejects path separators,
`'' | '.' | '..'`, and anything whose basename differs from itself.
(The `typeof` check is subsumed by typing.) -/
def assertBasename (name : PathStr) (label : String) : Except CpyErr PathStr :=
  if strIncludesSlash name ∨ strIncludesBackslash name then
    .error (.typeError (label ++ " must not contain path separators"))
  else if name = [""] ∨ name = ["."] ∨ name = [".."] then
    .error (.typeError (label ++ " must be a valid filename"))
  else if [basename name] ≠ name then
    .error (.typeError (label ++ " must be a filename, not a path"))
  else .ok name

/-- `assertRenameBasename`. -/
def assertRenameBasename (name : PathStr) : Except CpyErr PathStr :=
  assertBasename name "Rename"

/-- The `rename` option: absent, a literal string, or a callback.  A
callback (either the legacy basename-returning form or the descriptor
form) ultimately yields some destination path computed from the source
and the mapper's destination; it is abstracted as an arbitrary function
of those two paths, which covers every value the JS callback machinery
can produce. -/
inductive Rename
  | none
  | str (s : PathStr)
  | fn (f : PathStr → PathStr → PathStr)

/-- `renameFile({source, destination, rename})`. -/
def renameFile (source destination : PathStr) (rename : Rename) : Except CpyErr PathStr :=
  match rename with
  | .str s => do
    let b ← assertRenameBasename s
    .ok (join2 (dirname destination) b)
  | .fn f => .ok (f source destination)
  | .none => .ok destination

/-- The `\x7bdestinationPath, resolvedDestinationPath\x7d` pair cached
per entry. -/
structure ResolvedPaths where
  destinationPath : PathStr
  resolvedDestinationPath : PathStr
deriving DecidableEq

/-- `resolveDestinationPaths(entry)` (the per-entry memoization cache
is pure memoization of this pure function): structural mapping, then
rename, then the final self-copy check. -/
def resolveDestinationPaths (e : Entry) (destination : PathStr) (o : Options)
    (rename : Rename) : Except CpyErr ResolvedPaths := do
  let destinationPath := preprocessDestinationPath e destination o
  let destinationPath ← renameFile e.path destinationPath rename
  if isSelfCopy e.path destinationPath o.cwd then
    .error (.selfCopy e.path)
  else
    .ok ⟨destinationPath, resolveCopyPath destinationPath o.cwd⟩

end Cpy

namespace Cpy

/-!
## Entry collection (`getEntries`, lines 478-504)

`GlobPattern#getMatches()` consults the filesystem through globby; its
outcome per pattern is supplied as a function returning either the
matched absolute file paths or the thrown error's message.
-/

/-- `getEntries(patterns, ignorePatterns)`: per pattern, glob errors are
wrapped as `Cannot glob …`; zero matches for a non-dynamic pattern with
no dynamic ignore pattern is `Cannot copy …: the file doesn't exist`;
otherwise each match becomes an `Entry` with its cwd-relative path. -/
def getEntries (cwd : PathStr) (getMatches : GlobPatternM → Except String (List PathStr))
    (ignorePatterns : List PathStr) : List GlobPatternM → Except CpyErr (List Entry)
  | [] => .ok []
  | pattern :: rest =>
    match getMatches pattern with
    | .error msg => .error (.globFailure pattern.originalPath msg)
    | .ok found =>
      if found = [] ∧ ¬ isDynamicPattern pattern.originalPath
          ∧ ¬ ignorePatterns.any isDynamicPattern then
        .error (.fileDoesNotExist pattern.originalPath)
      else
        match getEntries cwd getMatches ignorePatterns rest with
        | .error err => .error err
        | .ok restEntries =>
          .ok (found.map (fun m => ⟨m, relative cwd m, pattern⟩) ++ restEntries)

/-!
## Option normalization (lines 447-471)
-/

/-- The option processing at the top of `cpy`: under
`ignoreExisting: true` the `overwrite` option is forced to `false`;
`shouldUseUpdate` additionally requires `update: true` and `overwrite`
not `false`.  Returns `(options', shouldIgnoreExisting,
shouldUseUpdate)`. -/
def normalizeOptions (o : Options) : Options × Bool × Bool :=
  let shouldIgnoreExisting := o.ignoreExisting
  let o' := if shouldIgnoreExisting then { o with overwrite := some false } else o
  let shouldUseUpdate := o'.update ∧ o'.overwrite ≠ some false ∧ ¬ shouldIgnoreExisting
  (o', shouldIgnoreExisting, shouldUseUpdate)

/-!
## Progress aggregation (`fileProgressHandler`, lines 752-798)

JS numbers are IEEE doubles; the byte counters and percentages the
handler manipulates are modeled as exact rationals (byte counts are
integers far below 2^53, where double arithmetic is exact, and
`n / n = 1` exactly in IEEE arithmetic).
-/

/-- A `copyStatus` map value. -/
structure FileStatus where
  writtenBytes : ℚ
  percent : ℚ
deriving DecidableEq

/-- A `copyStatus` key: the `` `${entry.path}\0${destinationPath}` ``
string, i.e. the (source path, destination path) pair of one copy job. -/
abbrev StatusKey := PathStr × PathStr

/-- One progress event from the external `copyFile` primitive (the
fields the handler reads). -/
structure CopyFileEvent where
  writtenBytes : ℚ
  percent : ℚ
  sourcePath : PathStr
  destinationPath : PathStr
deriving DecidableEq

/-- A progress record as reported to `onProgress` subscribers. -/
structure ProgressData where
  totalFiles : ℕ
  percent : ℚ
  completedFiles : ℕ
  completedSize : ℚ
  sourcePath : PathStr
  destinationPath : PathStr
deriving DecidableEq

/-- The state mutated by `fileProgressHandler`: the `copyStatus` map
(JS `Map`: insertion-ordered, set-replaces) and the two counters closed
over by the orchestrator. -/
structure ProgressState where
  copyStatus : List (StatusKey × FileStatus)
  completedFiles : ℕ
  completedSize : ℚ
deriving DecidableEq

/-- `Map#get`. -/
def mapGet (m : List (StatusKey × FileStatus)) (k : StatusKey) : Option FileStatus :=
  (m.find? (fun kv => kv.1 = k)).map (fun kv => kv.2)

/-- `Map#set`: replace in place, or append. -/
def mapSet (m : List (StatusKey × FileStatus)) (k : StatusKey) (v : FileStatus) :
    List (StatusKey × FileStatus) :=
  if m.any (fun kv => kv.1 = k) then
    m.map (fun kv => if kv.1 = k then (k, v) else kv)
  else m ++ [(k, v)]

/-- `fileProgressHandler(statusKey, event)` for `totalFiles` entries:
skip unchanged reports; otherwise replace the file's byte contribution
in `completedSize`, bump `completedFiles` when the file's percent first
reaches 1, record the new status, and emit a progress record. -/
def fileProgressHandler (totalFiles : ℕ) (key : StatusKey) (event : CopyFileEvent)
    (s : ProgressState) : ProgressState × Option ProgressData :=
  let fileStatus := (mapGet s.copyStatus key).getD ⟨0, 0⟩
  if fileStatus.writtenBytes ≠ event.writtenBytes ∨ fileStatus.percent ≠ event.percent then
    let completedSize := s.completedSize - fileStatus.writtenBytes + event.writtenBytes
    let completedFiles :=
      if event.percent = 1 ∧ fileStatus.percent ≠ 1 then s.completedFiles + 1
      else s.completedFiles
    let s' : ProgressState :=
      ⟨mapSet s.copyStatus key ⟨event.writtenBytes, event.percent⟩, completedFiles, completedSize⟩
    (s', some ⟨totalFiles, (completedFiles : ℚ) / (totalFiles : ℚ), completedFiles, completedSize,
      event.sourcePath, event.destinationPath⟩)
  else (s, none)

/-- Feed a list of events for one status key through the handler,
collecting the emitted progress records. -/
def runHandler (totalFiles : ℕ) (key : StatusKey) (events : List CopyFileEvent)
    (s : ProgressState) : ProgressState × List ProgressData :=
  events.foldl
    (fun acc ev =>
      let step := fileProgressHandler totalFiles key ev acc.1
      (step.1, acc.2 ++ step.2.toList))
    (s, [])

/-- The state of `fileProgressHandler` after an arbitrary event stream
(each event tagged with its status key), from the initial empty state. -/
def runProgress (totalFiles : ℕ) (events : List (StatusKey × CopyFileEvent)) : ProgressState :=
  events.foldl (fun s kev => (fileProgressHandler totalFiles kev.1 kev.2 s).1) ⟨[], 0, 0⟩

end Cpy

namespace Cpy

/-!
## The `ignoreExisting` pre-filter (lines 590-620)

The `pFilter` callbacks execute their synchronous prefix (the
`destinationPaths` duplicate check and insertion) in list order, so the
phase is modeled sequentially.  `lstat` is supplied as a function:
`.ok ()` models a successful `fs.lstat` (the destination exists in any
form), `.error code` a rejection with that error code.
-/

/-- The `shouldIgnoreExisting` entry filter: drop entries whose
resolved destination duplicates an earlier entry's or already exists on
disk; a non-`ENOENT` `lstat` failure aborts with a wrapped error. -/
def ignoreExistingFilter (destination : PathStr) (o : Options) (rename : Rename)
    (lstat : PathStr → Except String Unit) :
    List Entry → List PathStr → Except CpyErr (List Entry)
  | [], _ => .ok []
  | e :: rest, seen =>
    match resolveDestinationPaths e destination o rename with
    | .error err => .error err
    | .ok paths =>
      if paths.resolvedDestinationPath ∈ seen then
        ignoreExistingFilter destination o rename lstat rest seen
      else
        let seen' := seen ++ [paths.resolvedDestinationPath]
        match lstat paths.resolvedDestinationPath with
        | .ok _ => ignoreExistingFilter destination o rename lstat rest seen'
        | .error code =>
          if code = "ENOENT" then
            match ignoreExistingFilter destination o rename lstat rest seen' with
            | .error err => .error err
            | .ok kept => .ok (e :: kept)
          else .error (.copyFailure e.relativePath paths.destinationPath code)

/-!
## The `update` pre-filter (lines 622-728)

Filesystem stats are supplied as functions; `getDestinationState`'s
error handling is folded into `DestState` (`ENOENT` ↦ `absent`,
non-file stats ↦ `nonFile`).  Source stats are assumed to succeed (a
failing source stat aborts the whole operation and is outside the
claims).  `Number.NEGATIVE_INFINITY` is modeled as `none`.
-/

/-- `fs.stat` data consumed by the update logic. -/
structure Stats where
  mtimeMs : ℚ
  size : ℚ
deriving DecidableEq

/-- `getDestinationState` outcome for a destination path. -/
inductive DestState
  | absent
  | nonFile
  | file (mtimeMs : ℚ) (size : ℚ)
deriving DecidableEq

/-- One element of `entryDataList` (after the source stats are
gathered). -/
structure EntryData where
  entry : Entry
  destinationPath : PathStr
  resolvedDestinationPath : PathStr
  index : ℕ
  sourceStats : Stats
deriving DecidableEq

/-- A `bestCandidateByDestination` value; `mtimeMs = none` is the
`NEGATIVE_INFINITY` marker used by `registerNonFileCandidate`. -/
structure Candidate where
  entry : Entry
  index : ℕ
  mtimeMs : Option ℚ
deriving DecidableEq

/-- `x > candidate.mtimeMs` with `none = -∞`. -/
def mtimeGt (x : ℚ) : Option ℚ → Bool
  | none => true
  | some m => x > m

/-- `x = candidate.mtimeMs` with `none = -∞`. -/
def mtimeEq (x : ℚ) : Option ℚ → Bool
  | none => false
  | some m => x = m

/-- The `shouldCopy` test (lines 703-705) for a file-or-absent
destination state. -/
def shouldCopyUpdate (src : Stats) : DestState → Bool
  | .absent => true
  | .nonFile => false
  | .file m sz => src.mtimeMs > m ∨ (src.mtimeMs = m ∧ src.size ≠ sz)

/-- Candidate-map lookup (`bestCandidateByDestination.get`). -/
def candGet (m : List (PathStr × Candidate)) (k : PathStr) : Option Candidate :=
  (m.find? (fun kv => kv.1 = k)).map (fun kv => kv.2)

/-- Candidate-map update (`bestCandidateByDestination.set`). -/
def candSet (m : List (PathStr × Candidate)) (k : PathStr) (v : Candidate) :
    List (PathStr × Candidate) :=
  if m.any (fun kv => kv.1 = k) then
    m.map (fun kv => if kv.1 = k then (k, v) else kv)
  else m ++ [(k, v)]

/-- The body of the `for (const entryData of entriesWithStats)` loop
(lines 696-724). -/
def updateStep (dstState : PathStr → DestState) (best : List (PathStr × Candidate))
    (ed : EntryData) : List (PathStr × Candidate) :=
  match dstState ed.resolvedDestinationPath with
  | .nonFile =>
    -- registerNonFileCandidate
    if (candGet best ed.resolvedDestinationPath).isSome then best
    else candSet best ed.resolvedDestinationPath ⟨ed.entry, ed.index, none⟩
  | ds =>
    if shouldCopyUpdate ed.sourceStats ds then
      let isNewer :=
        match candGet best ed.resolvedDestinationPath with
        | none => true
        | some existing =>
          mtimeGt ed.sourceStats.mtimeMs existing.mtimeMs ∨
            (mtimeEq ed.sourceStats.mtimeMs existing.mtimeMs ∧ ed.index > existing.index)
      if isNewer then
        candSet best ed.resolvedDestinationPath ⟨ed.entry, ed.index, some ed.sourceStats.mtimeMs⟩
      else best
    else best

/-- `entryDataList` for an entry list (indices in list order), given
the per-entry resolved paths and source stats. -/
def entryDataList (resolvePaths : Entry → ResolvedPaths) (srcStat : PathStr → Stats)
    (entries : List Entry) : List EntryData :=
  entries.enum.map fun ie =>
    ⟨ie.2, (resolvePaths ie.2).destinationPath, (resolvePaths ie.2).resolvedDestinationPath,
      ie.1, srcStat ie.2.path⟩

/-- The whole `shouldUseUpdate` phase: build the candidate map and keep
only the entries selected as best candidate for their destination. -/
def updateFilter (resolvePaths : Entry → ResolvedPaths) (srcStat : PathStr → Stats)
    (dstState : PathStr → DestState) (entries : List Entry) : List Entry :=
  let eds := entryDataList resolvePaths srcStat entries
  let best := eds.foldl (updateStep dstState) []
  let selected := best.map (fun kv => kv.2.entry)
  entries.filter (fun e => selected.contains e)

/-!
## The copy phase (lines 732-856)

`pMap` is modeled sequentially (per-file event interleaving under
concurrency is not claimed).  The external `copyFile` primitive is a
function from the job to an outcome: success with the progress events
it emitted for that job, or failure with an error `code` and message.
-/

/-- One `copyFile` outcome. -/
inductive CopyOutcome
  | success (events : List CopyFileEvent)
  | failure (code : String) (msg : String)

/-- `copyFileMapper(entry)`: resolve the destination (may throw
self-copy), handle `dryRun`, run the copy with progress wired to
`fileProgressHandler`, turn `EEXIST`/`EISDIR` under `ignoreExisting`
into a skipped-copy report (`reportSkippedCopy`), wrap other failures.
Returns the updated progress state, emitted records and the
`destinationPath` result (`none` when skipped). -/
def copyFileMapper (totalFiles : ℕ) (destination : PathStr) (o : Options) (rename : Rename)
    (shouldIgnoreExisting : Bool) (copyFile : Entry → PathStr → CopyOutcome) (e : Entry)
    (s : ProgressState) : Except CpyErr (ProgressState × List ProgressData × Option PathStr) :=
  match resolveDestinationPaths e destination o rename with
  | .error err => .error err
  | .ok paths =>
    if o.dryRun then
      let completedFiles := s.completedFiles + 1
      let pd : ProgressData :=
        ⟨totalFiles, (completedFiles : ℚ) / (totalFiles : ℚ), completedFiles, s.completedSize,
          e.path, paths.resolvedDestinationPath⟩
      .ok (⟨s.copyStatus, completedFiles, s.completedSize⟩, [pd], some paths.resolvedDestinationPath)
    else
      let statusKey : StatusKey := (e.path, paths.destinationPath)
      match copyFile e paths.destinationPath with
      | .success events =>
        let step := runHandler totalFiles statusKey events s
        .ok (step.1, step.2, some paths.destinationPath)
      | .failure code msg =>
        if shouldIgnoreExisting ∧ (code = "EEXIST" ∨ code = "EISDIR") then
          let step := fileProgressHandler totalFiles statusKey
            ⟨0, 1, e.path, paths.resolvedDestinationPath⟩ s
          .ok (step.1, step.2.toList, none)
        else .error (.copyFailure e.relativePath paths.destinationPath msg)

/-- The sequential `pMap` loop over the final entry list, threading the
progress state; fail-fast on the first error (events emitted before the
failure are still reported). -/
def cpyLoop (totalFiles : ℕ) (destination : PathStr) (o : Options) (rename : Rename)
    (shouldIgnoreExisting : Bool) (copyFile : Entry → PathStr → CopyOutcome) :
    List Entry → ProgressState → Except CpyErr (List PathStr) × List ProgressData
  | [], _ => (.ok [], [])
  | e :: rest, s =>
    match copyFileMapper totalFiles destination o rename shouldIgnoreExisting copyFile e s with
    | .error err => (.error err, [])
    | .ok (s', pds, r?) =>
      match cpyLoop totalFiles destination o rename shouldIgnoreExisting copyFile rest s' with
      | (.error err, pds') => (.error err, pds ++ pds')
      | (.ok rs, pds') => (.ok (r?.toList ++ rs), pds ++ pds')

/-- The copy phase entered with the final entry list (lines 732-856):
an empty list emits exactly one terminal progress event with all
counters at their done values and resolves with the empty list;
otherwise the jobs run and `undefined` results (skipped files) are
filtered out of the returned destination list. -/
def cpyRun (entries : List Entry) (destination : PathStr) (o : Options) (rename : Rename)
    (shouldIgnoreExisting : Bool) (copyFile : Entry → PathStr → CopyOutcome) :
    Except CpyErr (List PathStr) × List ProgressData :=
  if entries = [] then
    (.ok [], [⟨0, 1, 0, 0, emptyPath, emptyPath⟩])
  else
    cpyLoop entries.length destination o rename shouldIgnoreExisting copyFile entries ⟨[], 0, 0⟩

end Cpy

namespace Cpy

/-!
## Lemmas about the path algebra
-/

/-- Accumulator elements an inner normalization can produce: never
`""`/`"."`. -/
def GoodAcc (acc : List String) : Prop := ∀ s ∈ acc, s ≠ "" ∧ s ≠ "."

/-- Accumulator elements of a root-anchored normalization: fully clean. -/
def CleanAcc (acc : List String) : Prop := ∀ s ∈ acc, Seg.Clean s

theorem normStep_clean (b : Bool) (acc : List String) (s : String) (h : Seg.Clean s) :
    normStep b acc s = s :: acc := by
  obtain ⟨h1, h2, h3⟩ := h
  unfold normStep
  simp [h1, h2, h3]

theorem foldl_normStep_clean (b : Bool) (l acc : List String) (h : ∀ s ∈ l, Seg.Clean s) :
    l.foldl (normStep b) acc = l.reverse ++ acc := by
  induction l generalizing acc with
  | nil => simp
  | cons s t ih =>
    have hs : Seg.Clean s := h s (by simp)
    have ht : ∀ x ∈ t, Seg.Clean x := fun x hx => h x (by simp [hx])
    simp [List.foldl_cons, normStep_clean b acc s hs, ih (s :: acc) ht]

theorem goodAcc_normStep (b : Bool) (acc : List String) (s : String) (h : GoodAcc acc) :
    GoodAcc (normStep b acc s) := by
  unfold normStep
  by_cases h1 : s = "" ∨ s = "."
  · simpa [h1]
  · simp only [h1, if_false]
    by_cases h2 : s = ".."
    · subst h2
      simp only [if_true]
      match acc with
      | [] =>
        cases b <;> simp [GoodAcc]
      | last :: rest =>
        by_cases h3 : last = ".."
        · cases b <;> simp_all [GoodAcc] <;> intro x hx <;> exact h x (by simp [hx])
        · simp only [h3, if_false]
          exact fun x hx => h x (by simp [hx])
    · simp only [h2, if_false]
      intro x hx
      rcases List.mem_cons.mp hx with h4 | h4
      · subst h4
        push_neg at h1
        exact ⟨h1.1, h1.2⟩
      · exact h x h4

theorem goodAcc_foldl (b : Bool) (l acc : List String) (h : GoodAcc acc) :
    GoodAcc (l.foldl (normStep b) acc) := by
  induction l generalizing acc with
  | nil => simpa
  | cons s t ih => exact ih _ (goodAcc_normStep b acc s h)

theorem cleanAcc_normStep_false (acc : List String) (s : String) (h : CleanAcc acc) :
    CleanAcc (normStep false acc s) := by
  unfold normStep
  by_cases h1 : s = "" ∨ s = "."
  · simpa [h1]
  · simp only [h1, if_false]
    by_cases h2 : s = ".."
    · subst h2
      simp only [if_true]
      match acc with
      | [] => simp [CleanAcc]
      | last :: rest =>
        by_cases h3 : last = ".."
        · exact absurd h3 (h last (by simp)).2.2
        · simp only [h3, if_false]
          exact fun x hx => h x (by simp [hx])
    · simp only [h2, if_false]
      intro x hx
      rcases List.mem_cons.mp hx with h4 | h4
      · subst h4
        push_neg at h1
        exact ⟨h1.1, h1.2, h2⟩
      · exact h x h4

theorem cleanAcc_foldl_false (l acc : List String) (h : CleanAcc acc) :
    CleanAcc (l.foldl (normStep false) acc) := by
  induction l generalizing acc with
  | nil => simpa
  | cons s t ih => exact ih _ (cleanAcc_normStep_false acc s h)

/-- Elements of `normSegs false p` are clean. -/
theorem normSegs_false_clean (p : List String) : ∀ s ∈ normSegs false p, Seg.Clean s := by
  intro s hs
  have := cleanAcc_foldl_false p [] (by intro x hx; cases hx)
  exact this s (List.mem_reverse.mp (by simpa [normSegs] using hs))

/-- The key replay step: folding the normalized form of one more
segment into a root-anchored fold is the same as folding the segment
directly. -/
theorem replay_step (acc b : List String) (s : String) (h : GoodAcc acc) :
    List.foldl (normStep false) b (normStep true acc s).reverse
      = normStep false (List.foldl (normStep false) b acc.reverse) s := by
  by_cases h1 : s = "" ∨ s = "."
  · have e1 : normStep true acc s = acc := by unfold normStep; simp [h1]
    have e2 : ∀ t, normStep false t s = t := by intro t; unfold normStep; simp [h1]
    rw [e1, e2]
  · by_cases h2 : s = ".."
    · subst h2
      match acc with
      | [] =>
        have e1 : normStep true ([] : List String) ".." = [".."] := by rfl
        simp [e1]
      | last :: rest =>
        by_cases h3 : last = ".."
        · subst h3
          have e1 : normStep true (".." :: rest) ".." = ".." :: ".." :: rest := by rfl
          rw [e1]
          rw [show (".." :: ".." :: rest).reverse = (".." :: rest).reverse ++ [".."] by simp,
            List.foldl_append]
          rfl
        · have e1 : normStep true (last :: rest) ".." = rest := by
            unfold normStep; simp [h3]
          rw [e1]
          have hlast : Seg.Clean last :=
            ⟨(h last (by simp)).1, (h last (by simp)).2, h3⟩
          rw [show (last :: rest).reverse = rest.reverse ++ [last] by simp, List.foldl_append]
          have e2 : List.foldl (normStep false) (List.foldl (normStep false) b rest.reverse) [last]
              = last :: List.foldl (normStep false) b rest.reverse := by
            simp [normStep_clean false _ last hlast]
          rw [e2]
          unfold normStep
          simp [h3]
    · push_neg at h1
      have hs : Seg.Clean s := ⟨h1.1, h1.2, h2⟩
      rw [normStep_clean true acc s hs,
        show (s :: acc).reverse = acc.reverse ++ [s] by simp, List.foldl_append]
      rfl

/-- Replaying an inner normalization (`allowAboveRoot = true`) onto a
root-anchored fold gives the same result as folding the raw segments. -/
theorem replay_foldl (d : List String) (acc b : List String) (h : GoodAcc acc) :
    List.foldl (normStep false) b (List.foldl (normStep true) acc d).reverse
      = List.foldl (normStep false) (List.foldl (normStep false) b acc.reverse) d := by
  induction d generalizing acc with
  | nil => simp
  | cons s t ih =>
    rw [List.foldl_cons, List.foldl_cons,
      ih (normStep true acc s) (goodAcc_normStep true acc s h),
      replay_step acc b s h]

/-- Specialization: resolving a `normSegs true`-normalized relative
path against any base is resolving the raw path. -/
theorem replay_normSegs (d b : List String) :
    List.foldl (normStep false) b (normSegs true d)
      = List.foldl (normStep false) b d := by
  have := replay_foldl d [] b (by intro x hx; cases hx)
  simpa [normSegs] using this

end Cpy

namespace Cpy

/-!
## Shape lemmas for the path algebra
-/

/-- An absolute path with nonempty, clean canonical segments (the shape
the code's invariants give the working directory and entry paths). -/
def CleanAbs (p : PathStr) : Prop :=
  ∃ l, p = "" :: l ∧ l ≠ [] ∧ ∀ s ∈ l, Seg.Clean s

theorem isAbsolute_cons_cons (x y : String) (t : List String) :
    isAbsolute (x :: y :: t) = decide (x = "") := rfl

theorem isAbsolute_cons_empty (l : List String) (h : l ≠ []) :
    isAbsolute ("" :: l) = true := by
  match l, h with
  | y :: t, _ => simp [isAbsolute_cons_cons]

theorem isAbsolute_of_head_ne (x : String) (t : List String) (hx : x ≠ "") :
    isAbsolute (x :: t) = false := by
  cases t with
  | nil => rfl
  | cons y u => simp [isAbsolute_cons_cons, hx]

theorem isAbsolute_append (p rs : List String) (hp : p ≠ []) (hp' : p ≠ emptyPath)
    (hrs : rs ≠ []) : isAbsolute (p ++ rs) = isAbsolute p := by
  match p, hp with
  | [x], _ =>
    have hx : x ≠ "" := by
      intro h
      exact hp' (by simp [emptyPath, h])
    match rs, hrs with
    | y :: u, _ => simp [isAbsolute_cons_cons, isAbsolute_of_head_ne x [] hx, hx]
  | x :: y :: t, _ => simp [isAbsolute_cons_cons]

theorem endsWithSep_eq_false_of_last (p : PathStr) (s : String)
    (hlast : p.getLast? = some s) (hs : s ≠ "") : endsWithSep p = false := by
  unfold endsWithSep
  rw [hlast]
  simp [hs]

theorem normStep_empty (b : Bool) (acc : List String) : normStep b acc "" = acc := by
  simp [normStep]

theorem normStep_dot (b : Bool) (acc : List String) : normStep b acc "." = acc := by
  simp [normStep]

theorem normSegs_append_clean (b : Bool) (p rs : List String)
    (h : ∀ s ∈ rs, Seg.Clean s) : normSegs b (p ++ rs) = normSegs b p ++ rs := by
  unfold normSegs
  rw [List.foldl_append, foldl_normStep_clean b rs _ h]
  simp

theorem normSegs_append_empty (b : Bool) (p : List String) :
    normSegs b (p ++ [""]) = normSegs b p := by
  unfold normSegs
  rw [List.foldl_append]
  simp [normStep_empty]

theorem normSegs_append_dot (b : Bool) (p : List String) :
    normSegs b (p ++ ["."]) = normSegs b p := by
  unfold normSegs
  rw [List.foldl_append]
  simp [normStep_dot]

theorem normSegs_cons_empty (b : Bool) (p : List String) :
    normSegs b ("" :: p) = normSegs b p := by
  unfold normSegs
  simp [List.foldl_cons, normStep_empty]

theorem normSegs_of_clean (b : Bool) (p : List String) (h : ∀ s ∈ p, Seg.Clean s) :
    normSegs b p = p := by
  unfold normSegs
  rw [foldl_normStep_clean b p [] h]
  simp

/-- Elements of `normSegs true p` are never `""` or `"."`. -/
theorem normSegs_true_good (p : List String) : ∀ s ∈ normSegs true p, s ≠ "" ∧ s ≠ "." := by
  intro s hs
  have := goodAcc_foldl true p [] (by intro x hx; cases hx)
  exact this s (List.mem_reverse.mp (by simpa [normSegs] using hs))

/-- Resolving a pre-normalized relative path against a base is
resolving the raw path (segment-level `replay_normSegs`). -/
theorem normSegs_base_normSegs_true (cwd p : List String) :
    normSegs false (cwd ++ normSegs true p) = normSegs false (cwd ++ p) := by
  unfold normSegs
  rw [List.foldl_append, List.foldl_append]
  congr 1
  simpa [normSegs] using replay_normSegs p (List.foldl (normStep false) [] cwd)

theorem canonSegs_clean (cwd p : PathStr) : ∀ s ∈ canonSegs cwd p, Seg.Clean s := by
  unfold canonSegs
  by_cases h : isAbsolute p = true
  · simpa [h] using normSegs_false_clean p
  · simp only [Bool.not_eq_true] at h
    simpa [h] using normSegs_false_clean (cwd ++ p)

theorem canonSegs_emptyPath (cwd : PathStr) :
    canonSegs cwd emptyPath = normSegs false cwd := by
  unfold canonSegs
  rw [show isAbsolute emptyPath = false from rfl]
  simp [emptyPath, normSegs_append_empty]

theorem canonSegs_dot (cwd : PathStr) : canonSegs cwd ["."] = normSegs false cwd := by
  unfold canonSegs
  rw [show isAbsolute ["."] = false from rfl]
  simp [normSegs_append_dot]

theorem canonSegs_dotSlash (cwd : PathStr) : canonSegs cwd [".", ""] = normSegs false cwd := by
  unfold canonSegs
  rw [show isAbsolute [".", ""] = false from rfl]
  simp only [Bool.false_eq_true, if_false]
  rw [show cwd ++ [".", ""] = (cwd ++ ["."]) ++ [""] by simp, normSegs_append_empty,
    normSegs_append_dot]

theorem canonSegs_of_cleanAbs_self (cwd : PathStr) (h : CleanAbs cwd) :
    canonSegs cwd cwd = cwd.tail := by
  obtain ⟨l, rfl, hne, hcl⟩ := h
  unfold canonSegs
  rw [isAbsolute_cons_empty l hne]
  simp only [if_true, List.tail_cons]
  rw [normSegs_cons_empty, normSegs_of_clean false l hcl]

theorem normSegs_false_cleanAbs (cwd : PathStr) (h : CleanAbs cwd) :
    normSegs false cwd = cwd.tail := by
  obtain ⟨l, rfl, hne, hcl⟩ := h
  rw [normSegs_cons_empty, normSegs_of_clean false l hcl]
  rfl

end Cpy

namespace Cpy

theorem normSegs_false_pair_empty : normSegs false ["", ""] = [] := rfl

/-- `canonSegs` ignores a final `normalize`: normalizing a path does
not change where it resolves to. -/
theorem canonSegs_normalize (cwd p : PathStr) :
    canonSegs cwd (normalize p) = canonSegs cwd p := by
  by_cases hp : p = emptyPath
  · subst hp
    rw [show normalize emptyPath = ["."] from rfl, canonSegs_dot, canonSegs_emptyPath]
  · by_cases hA : isAbsolute p = true
    · by_cases hc : normSegs false p = []
      · have hn : normalize p = ["", ""] := by
          unfold normalize
          simp [hp, hA, hc]
        rw [hn]
        unfold canonSegs
        rw [show isAbsolute ["", ""] = true from rfl, if_pos rfl, normSegs_false_pair_empty,
          hA, if_pos rfl, hc]
      · have hclean := normSegs_false_clean p
        cases hT : endsWithSep p with
        | true =>
          have hn : normalize p = "" :: (normSegs false p ++ [""]) := by
            unfold normalize
            simp [hp, hA, hc, hT]
          rw [hn]
          unfold canonSegs
          rw [isAbsolute_cons_empty _ (by simp), if_pos rfl, normSegs_cons_empty,
            normSegs_append_empty, normSegs_of_clean false _ hclean, hA, if_pos rfl]
        | false =>
          have hn : normalize p = "" :: normSegs false p := by
            unfold normalize
            simp [hp, hA, hc, hT]
          rw [hn]
          unfold canonSegs
          rw [isAbsolute_cons_empty _ hc, if_pos rfl, normSegs_cons_empty,
            normSegs_of_clean false _ hclean, hA, if_pos rfl]
    · have hA' : isAbsolute p = false := by simpa using hA
      by_cases hc : normSegs true p = []
      · cases hT : endsWithSep p with
        | true =>
          have hn : normalize p = [".", ""] := by
            unfold normalize
            simp [hp, hA', hc, hT]
          rw [hn, canonSegs_dotSlash]
          unfold canonSegs
          rw [hA', if_neg (by simp), ← normSegs_base_normSegs_true cwd p, hc]
          simp
        | false =>
          have hn : normalize p = ["."] := by
            unfold normalize
            simp [hp, hA', hc, hT]
          rw [hn, canonSegs_dot]
          unfold canonSegs
          rw [hA', if_neg (by simp), ← normSegs_base_normSegs_true cwd p, hc]
          simp
      · obtain ⟨c0, ct, hcore⟩ : ∃ c0 ct, normSegs true p = c0 :: ct := by
          match h : normSegs true p, hc with
          | x :: t, _ => exact ⟨x, t, rfl⟩
        have hc0 : c0 ≠ "" := (normSegs_true_good p c0 (by rw [hcore]; simp)).1
        cases hT : endsWithSep p with
        | true =>
          have hn : normalize p = normSegs true p ++ [""] := by
            unfold normalize
            simp [hp, hA', hc, hT]
          rw [hn]
          unfold canonSegs
          rw [hcore, show (c0 :: ct) ++ [""] = c0 :: (ct ++ [""]) from rfl,
            isAbsolute_of_head_ne c0 _ hc0, if_neg (by simp), hA', if_neg (by simp)]
          rw [show cwd ++ c0 :: (ct ++ [""]) = (cwd ++ c0 :: ct) ++ [""] by simp,
            normSegs_append_empty, ← hcore, normSegs_base_normSegs_true]
        | false =>
          have hn : normalize p = normSegs true p := by
            unfold normalize
            simp [hp, hA', hc, hT]
          rw [hn]
          unfold canonSegs
          rw [hcore, isAbsolute_of_head_ne c0 _ hc0, if_neg (by simp), hA',
            if_neg (by simp), ← hcore, normSegs_base_normSegs_true]

end Cpy

namespace Cpy

theorem canonSegs_append_clean (cwd p rs : PathStr) (hp : p ≠ []) (hp' : p ≠ emptyPath)
    (hrs : ∀ s ∈ rs, Seg.Clean s) (hrsne : rs ≠ []) :
    canonSegs cwd (p ++ rs) = canonSegs cwd p ++ rs := by
  unfold canonSegs
  rw [isAbsolute_append p rs hp hp' hrsne]
  by_cases hA : isAbsolute p = true
  · rw [if_pos hA, if_pos hA, normSegs_append_clean false p rs hrs]
  · rw [if_neg hA, if_neg hA, ← List.append_assoc, normSegs_append_clean false (cwd ++ p) rs hrs]

theorem canonSegs_rel_of_clean (cwd rs : PathStr) (hrs : ∀ s ∈ rs, Seg.Clean s)
    (hrsne : rs ≠ []) : canonSegs cwd rs = normSegs false cwd ++ rs := by
  obtain ⟨c0, ct, rfl⟩ : ∃ c0 ct, rs = c0 :: ct := by
    match rs, hrsne with
    | x :: t, _ => exact ⟨x, t, rfl⟩
  unfold canonSegs
  rw [isAbsolute_of_head_ne c0 ct (hrs c0 (by simp)).1, if_neg (by simp),
    normSegs_append_clean false cwd _ hrs]

/-- `path.join(D, rs)` for a clean nonempty relative tail `rs`:
resolving the join appends `rs` to the resolution of `D`. -/
theorem canonSegs_join2 (cwd D rs : PathStr) (hD : D ≠ [])
    (hrs : ∀ s ∈ rs, Seg.Clean s) (hrsne : rs ≠ []) :
    canonSegs cwd (join2 D rs) = canonSegs cwd D ++ rs := by
  have hrs' : rs ≠ emptyPath := by
    intro h
    exact (hrs "" (by rw [h]; simp [emptyPath])).1 rfl
  by_cases hDe : D = emptyPath
  · subst hDe
    have : join2 emptyPath rs = normalize rs := by
      unfold join2 joinList
      simp [hrs']
    rw [this, canonSegs_normalize, canonSegs_rel_of_clean cwd rs hrs hrsne, canonSegs_emptyPath]
  · have : join2 D rs = normalize (D ++ rs) := by
      unfold join2 joinList
      simp [hDe, hrs']
    rw [this, canonSegs_normalize, canonSegs_append_clean cwd D rs hD hDe hrs hrsne]

/-- `path.join(D, "")` resolves like `D`. -/
theorem canonSegs_join2_empty (cwd D : PathStr) :
    canonSegs cwd (join2 D emptyPath) = canonSegs cwd D := by
  by_cases hDe : D = emptyPath
  · subst hDe
    rw [show join2 emptyPath emptyPath = ["."] from rfl, canonSegs_dot, canonSegs_emptyPath]
  · have : join2 D emptyPath = normalize D := by
      unfold join2 joinList
      simp [hDe]
    rw [this, canonSegs_normalize]

/-- `path.join(cwd, q)` for relative `q` resolves like `q` itself. -/
theorem canonSegs_join2_cwd (cwd q : PathStr) (hcwd : CleanAbs cwd)
    (hq : isAbsolute q = false) : canonSegs cwd (join2 cwd q) = canonSegs cwd q := by
  obtain ⟨l, hleq, hlne, hlcl⟩ := hcwd
  have hcwdne : cwd ≠ emptyPath := by
    rw [hleq]
    intro h
    rw [show emptyPath = [""] from rfl] at h
    cases h
    exact hlne rfl
  by_cases hqe : q = emptyPath
  · subst hqe
    rw [canonSegs_join2_empty, canonSegs_emptyPath,
      canonSegs_of_cleanAbs_self cwd ⟨l, hleq, hlne, hlcl⟩,
      normSegs_false_cleanAbs cwd ⟨l, hleq, hlne, hlcl⟩]
  · have hj : join2 cwd q = normalize (cwd ++ q) := by
      unfold join2 joinList
      simp [hcwdne, hqe]
    have habs : isAbsolute (cwd ++ q) = true := by
      rw [hleq, List.cons_append]
      exact isAbsolute_cons_empty (l ++ q) (by simp [hlne])
    rw [hj, canonSegs_normalize]
    simp [canonSegs, habs, hq]

/-- `path.join(A, B, "")` is `path.join(A, B)`. -/
theorem join3_empty_last (A B : PathStr) : join3 A B emptyPath = join2 A B := by
  unfold join3 join2 joinList
  have hf : [A, B, emptyPath] = [A, B] ++ [emptyPath] := rfl
  rw [hf, List.filter_append]
  simp

/-- `path.join(A, B, rs)` for a clean nonempty tail `rs`. -/
theorem canonSegs_join3 (cwd A B rs : PathStr) (hA : A ≠ []) (hB : B ≠ [])
    (hrs : ∀ s ∈ rs, Seg.Clean s) (hrsne : rs ≠ []) :
    canonSegs cwd (join3 A B rs) = canonSegs cwd (join2 A B) ++ rs := by
  have hrs' : rs ≠ emptyPath := by
    intro h
    exact (hrs "" (by rw [h]; simp [emptyPath])).1 rfl
  by_cases hAe : A = emptyPath
  · subst hAe
    by_cases hBe : B = emptyPath
    · subst hBe
      have h3 : join3 emptyPath emptyPath rs = normalize rs := by
        unfold join3 joinList
        simp [hrs']
      rw [h3, canonSegs_normalize, canonSegs_rel_of_clean cwd rs hrs hrsne,
        show join2 emptyPath emptyPath = ["."] from rfl, canonSegs_dot]
    · have h3 : join3 emptyPath B rs = normalize (B ++ rs) := by
        unfold join3 joinList
        simp [hBe, hrs']
      have h2 : join2 emptyPath B = normalize B := by
        unfold join2 joinList
        simp [hBe]
      rw [h3, h2, canonSegs_normalize, canonSegs_normalize,
        canonSegs_append_clean cwd B rs hB hBe hrs hrsne]
  · by_cases hBe : B = emptyPath
    · have h3 : join3 A B rs = normalize (A ++ rs) := by
        unfold join3 joinList
        simp [hAe, hBe, hrs']
      have h2 : join2 A B = normalize A := by
        unfold join2 joinList
        simp [hAe, hBe]
      rw [h3, h2, canonSegs_normalize, canonSegs_normalize,
        canonSegs_append_clean cwd A rs hA hAe hrs hrsne]
    · have h3 : join3 A B rs = normalize (A ++ B ++ rs) := by
        unfold join3 joinList
        simp [hAe, hBe, hrs']
      have h2 : join2 A B = normalize (A ++ B) := by
        unfold join2 joinList
        simp [hAe, hBe]
      have hABne : A ++ B ≠ [] := by simp [hAe, hA]
      have hABe : A ++ B ≠ emptyPath := by
        intro h
        match A, hA with
        | a0 :: A', _ =>
          rw [show emptyPath = [""] from rfl, List.cons_append] at h
          have h' := List.cons.injEq a0 (A' ++ B) "" [] ▸ h
          simp at h'
          exact hB h'.2.2
      rw [h3, h2, canonSegs_normalize, canonSegs_normalize,
        canonSegs_append_clean cwd (A ++ B) rs hABne hABe hrs hrsne]

end Cpy

namespace Cpy

/-!
## Shapes of resolved paths, basenames, and `relative` outputs
-/

/-- The shape of any `resolve`/`normalize`-of-absolute output: the bare
root, or a root followed by clean segments and an optional trailing
separator. -/
def AbsShape (q : PathStr) : Prop :=
  q = ["", ""] ∨ ∃ core, core ≠ [] ∧ (∀ s ∈ core, Seg.Clean s) ∧
    (q = "" :: core ∨ q = "" :: (core ++ [""]))

/-- `resolveAbs` yields the bare root or `"" :: normSegs false p`. -/
theorem resolveAbs_shape (p : PathStr) :
    resolveAbs p = ["", ""] ∨
      (resolveAbs p = "" :: normSegs false p ∧ normSegs false p ≠ []) := by
  unfold resolveAbs
  by_cases hc : normSegs false p = []
  · left
    simp [hc]
  · right
    simp [hc]

theorem absShape_resolveAbs (p : PathStr) : AbsShape (resolveAbs p) := by
  rcases resolveAbs_shape p with h | ⟨h, hc⟩
  · exact Or.inl h
  · exact Or.inr ⟨normSegs false p, hc, normSegs_false_clean p, Or.inl h⟩

theorem resolve_shape (b p : PathStr) :
    resolve b p = ["", ""] ∨
      ∃ core, resolve b p = "" :: core ∧ core ≠ [] ∧ ∀ s ∈ core, Seg.Clean s := by
  unfold resolve
  by_cases hA : isAbsolute p = true
  · simp only [hA, if_pos rfl]
    by_cases hc : normSegs false p = []
    · left
      simp [hc]
    · right
      exact ⟨normSegs false p, by simp [hc], hc, normSegs_false_clean p⟩
  · simp only [if_neg hA]
    by_cases hc : normSegs false (b ++ p) = []
    · left
      simp [hc]
    · right
      exact ⟨normSegs false (b ++ p), by simp [hc], hc, normSegs_false_clean _⟩

theorem absShape_normalize_abs (p : PathStr) (hA : isAbsolute p = true) :
    AbsShape (normalize p) := by
  have hp : p ≠ emptyPath := by
    intro h
    rw [h] at hA
    exact absurd hA (by simp [emptyPath, isAbsolute])
  by_cases hc : normSegs false p = []
  · left
    unfold normalize
    simp [hp, hA, hc]
  · right
    refine ⟨normSegs false p, hc, normSegs_false_clean p, ?_⟩
    cases hT : endsWithSep p with
    | true =>
      right
      unfold normalize
      simp [hp, hA, hc, hT]
    | false =>
      left
      unfold normalize
      simp [hp, hA, hc, hT]

theorem absShape_cleanAbs (p : PathStr) (h : CleanAbs p) : AbsShape p := by
  obtain ⟨l, rfl, hne, hcl⟩ := h
  exact Or.inr ⟨l, hne, hcl, Or.inl rfl⟩

theorem endsWithSep_concat_empty (l : List String) (h : l ≠ []) :
    endsWithSep (l ++ [""]) = true := by
  unfold endsWithSep
  rw [List.getLast?_concat]
  have hlen : 1 ≤ l.length := by
    cases l with
    | nil => exact absurd rfl h
    | cons x t => simp
  simp [hlen]

theorem endsWithSep_concat_clean (l : List String) (c : String) (hc : c ≠ "") :
    endsWithSep (l ++ [c]) = false :=
  endsWithSep_eq_false_of_last _ c (List.getLast?_concat _) hc

/-- Normalizing a path that already has the resolved-absolute shape is
the identity. -/
theorem normalize_absShape_id (q : PathStr) (h : AbsShape q) : normalize q = q := by
  rcases h with rfl | ⟨core, hne, hcl, hq | hq⟩
  · rfl
  · subst hq
    obtain ⟨cs, c, rfl⟩ : ∃ cs c, core = cs ++ [c] := by
      rcases List.eq_nil_or_concat core with h | ⟨cs, c, h⟩
      · exact absurd h hne
      · exact ⟨cs, c, by simpa [List.concat_eq_append] using h⟩
    have hc : c ≠ "" := (hcl c (by simp)).1
    have hp : "" :: (cs ++ [c]) ≠ emptyPath := by
      simp [emptyPath]
    have hA : isAbsolute ("" :: (cs ++ [c])) = true :=
      isAbsolute_cons_empty _ (by simp)
    have hT : endsWithSep ("" :: (cs ++ [c])) = false := by
      rw [show ("" :: (cs ++ [c])) = ("" :: cs) ++ [c] by simp]
      exact endsWithSep_concat_clean _ c hc
    have hcore : normSegs false ("" :: (cs ++ [c])) = cs ++ [c] := by
      rw [normSegs_cons_empty, normSegs_of_clean false _ hcl]
    unfold normalize
    simp [hp, hA, hT, hcore]
  · subst hq
    obtain ⟨cs, c, rfl⟩ : ∃ cs c, core = cs ++ [c] := by
      rcases List.eq_nil_or_concat core with h | ⟨cs, c, h⟩
      · exact absurd h hne
      · exact ⟨cs, c, by simpa [List.concat_eq_append] using h⟩
    have hp : "" :: ((cs ++ [c]) ++ [""]) ≠ emptyPath := by
      simp [emptyPath]
    have hA : isAbsolute ("" :: ((cs ++ [c]) ++ [""])) = true :=
      isAbsolute_cons_empty _ (by simp)
    have hT : endsWithSep ("" :: ((cs ++ [c]) ++ [""])) = true := by
      rw [show ("" :: ((cs ++ [c]) ++ [""])) = ("" :: (cs ++ [c])) ++ [""] by simp]
      exact endsWithSep_concat_empty _ (by simp)
    have hcore : normSegs false ("" :: ((cs ++ [c]) ++ [""])) = cs ++ [c] := by
      rw [normSegs_cons_empty, normSegs_append_empty, normSegs_of_clean false _ hcl]
    simp only [List.append_assoc, List.singleton_append] at hp hA hT hcore
    unfold normalize
    simp [hp, hA, hT, hcore]

end Cpy

namespace Cpy

theorem basename_concat (q : PathStr) (c : String) (hc : c ≠ "") :
    basename (q ++ [c]) = c := by
  unfold basename
  rw [List.reverse_append]
  simp [List.dropWhile_cons, hc]

theorem basename_absShape (q : PathStr) (h : AbsShape q) :
    basename q = "" ∨ Seg.Clean (basename q) := by
  rcases h with rfl | ⟨core, hne, hcl, hq | hq⟩
  · left
    rfl
  · obtain ⟨cs, c, rfl⟩ : ∃ cs c, core = cs ++ [c] := by
      rcases List.eq_nil_or_concat core with h | ⟨cs, c, h⟩
      · exact absurd h hne
      · exact ⟨cs, c, by simpa [List.concat_eq_append] using h⟩
    right
    have hc := hcl c (by simp)
    rw [hq, show ("" :: (cs ++ [c])) = ("" :: cs) ++ [c] by simp,
      basename_concat _ c hc.1]
    exact hc
  · obtain ⟨cs, c, rfl⟩ : ∃ cs c, core = cs ++ [c] := by
      rcases List.eq_nil_or_concat core with h | ⟨cs, c, h⟩
      · exact absurd h hne
      · exact ⟨cs, c, by simpa [List.concat_eq_append] using h⟩
    right
    have hc := hcl c (by simp)
    have : basename ("" :: ((cs ++ [c]) ++ [""])) = basename ("" :: (cs ++ [c])) := by
      unfold basename
      rw [show ("" :: ((cs ++ [c]) ++ [""])) = ("" :: (cs ++ [c])) ++ [""] by simp,
        List.reverse_append]
      simp [List.dropWhile_cons]
    rw [hq, this, show ("" :: (cs ++ [c])) = ("" :: cs) ++ [c] by simp,
      basename_concat _ c hc.1]
    exact hc

theorem basename_cleanAbs (p : PathStr) (h : CleanAbs p) : Seg.Clean (basename p) := by
  obtain ⟨l, rfl, hne, hcl⟩ := h
  obtain ⟨cs, c, rfl⟩ : ∃ cs c, l = cs ++ [c] := by
    rcases List.eq_nil_or_concat l with h | ⟨cs, c, h⟩
    · exact absurd h hne
    · exact ⟨cs, c, by simpa [List.concat_eq_append] using h⟩
  have hc := hcl c (by simp)
  rw [show ("" :: (cs ++ [c])) = ("" :: cs) ++ [c] by simp, basename_concat _ c hc.1]
  exact hc

theorem dropCommon_suffix (a : List String) : ∀ b, (dropCommon a b).2 <:+ b := by
  induction a with
  | nil =>
    intro b
    cases b <;> exact List.suffix_refl _
  | cons x a ih =>
    intro b
    cases b with
    | nil => exact List.suffix_refl _
    | cons y b =>
      unfold dropCommon
      by_cases h : x = y
      · simp only [h, if_pos rfl]
        exact (ih b).trans (List.suffix_cons y b)
      · simp only [if_neg h]
        exact List.suffix_refl _

/-- Every output of `relative` is a run of `".."` segments followed by
clean segments (and is the empty-string path rather than `[]`). -/
theorem relative_shape (f t : PathStr) :
    relative f t = emptyPath ∨
      ∃ k tr, relative f t = List.replicate k ".." ++ tr ∧
        (∀ s ∈ tr, Seg.Clean s) ∧ relative f t ≠ [] := by
  unfold relative
  by_cases h1 : f = t
  · simp [h1]
  · simp only [if_neg h1]
    by_cases h2 : resolveAbs f = resolveAbs t
    · simp [h2]
    · simp only [if_neg h2]
      have hts : ∀ s ∈ (if resolveAbs t = ["", ""] then []
          else (resolveAbs t).tail), Seg.Clean s := by
        by_cases h3 : resolveAbs t = ["", ""]
        · simp [h3]
        · simp only [if_neg h3]
          rcases resolveAbs_shape t with h4 | ⟨h4, _⟩
          · exact absurd h4 h3
          · rw [h4]
            simpa using normSegs_false_clean t
      set fs := if resolveAbs f = ["", ""] then [] else (resolveAbs f).tail with hfs
      set ts := if resolveAbs t = ["", ""] then [] else (resolveAbs t).tail with hts'
      have htr : ∀ s ∈ (dropCommon fs ts).2, Seg.Clean s := fun s hs =>
        hts s ((dropCommon_suffix fs ts).sublist.mem hs)
      by_cases hm : (dropCommon fs ts).1.map (fun _ => "..") ++ (dropCommon fs ts).2 = []
      · rw [hm]
        simp
      · obtain ⟨x, rest, hx⟩ := List.exists_cons_of_ne_nil hm
        have hmatch : (match (dropCommon fs ts).1.map (fun _ => "..") ++ (dropCommon fs ts).2 with
            | [] => emptyPath
            | l => l) = (dropCommon fs ts).1.map (fun _ => "..") ++ (dropCommon fs ts).2 := by
          rw [hx]
        rw [hmatch]
        right
        refine ⟨(dropCommon fs ts).1.length, (dropCommon fs ts).2, ?_, htr, by rw [hx]; simp⟩
        congr 1
        simp

end Cpy

namespace Cpy

theorem startsWithDotDot_cons_dotdot (l : List String) :
    startsWithDotDot (".." :: l) = true := rfl

theorem relative_clean_of_not_dotdot (f t : PathStr)
    (h : startsWithDotDot (relative f t) = false) :
    relative f t = emptyPath ∨
      ((∀ s ∈ relative f t, Seg.Clean s) ∧ relative f t ≠ []) := by
  rcases relative_shape f t with he | ⟨k, tr, heq, htr, hne⟩
  · exact Or.inl he
  · cases k with
    | zero =>
      right
      simp only [List.replicate_zero, List.nil_append] at heq
      rw [heq]
      exact ⟨htr, by rw [← heq]; exact hne⟩
    | succ k =>
      rw [heq, List.replicate_succ, List.cons_append, startsWithDotDot_cons_dotdot] at h
      cases h

theorem relativizeWithin_eq_some (base file r : PathStr)
    (h : relativizeWithin base file = some r) :
    r = relative base file ∧ startsWithDotDot (relative base file) = false := by
  simp only [relativizeWithin] at h
  by_cases hc : (startsWithDotDot (relative base file) = true ∨
      isAbsolute (relative base file) = true)
  · rw [if_pos (by simpa using hc)] at h
    cases h
  · rw [if_neg (by simpa using hc)] at h
    push_neg at hc
    exact ⟨(Option.some.injEq _ _ ▸ h).symm, by simpa using hc.1⟩

theorem relativizeWithin_clean (base file r : PathStr)
    (h : relativizeWithin base file = some r) :
    r = emptyPath ∨ ((∀ s ∈ r, Seg.Clean s) ∧ r ≠ []) := by
  obtain ⟨rfl, hsw⟩ := relativizeWithin_eq_some base file r h
  exact relative_clean_of_not_dotdot base file hsw

theorem resolveRelativePath_clean (bases : List PathStr) (file : PathStr)
    (hfile : Seg.Clean (basename file)) :
    resolveRelativePath bases file = emptyPath ∨
      ((∀ s ∈ resolveRelativePath bases file, Seg.Clean s) ∧
        resolveRelativePath bases file ≠ []) := by
  induction bases with
  | nil =>
    right
    refine ⟨?_, by simp [resolveRelativePath]⟩
    intro s hs
    simp only [resolveRelativePath, List.mem_singleton] at hs
    rw [hs]
    exact hfile
  | cons b bs ih =>
    unfold resolveRelativePath
    cases hr : relativizeWithin b file with
    | some r => exact relativizeWithin_clean b file r hr
    | none => exact ih

theorem cleanAbs_ne (p : PathStr) (h : CleanAbs p) : p ≠ [] ∧ p ≠ emptyPath := by
  obtain ⟨l, rfl, hne, _⟩ := h
  refine ⟨by simp, ?_⟩
  intro h'
  rw [show emptyPath = [""] from rfl] at h'
  have := List.cons.injEq "" l "" [] ▸ h'
  simp at this
  exact hne this

theorem normalize_of_clean (p : PathStr) (hne : p ≠ [])
    (hcl : ∀ s ∈ p, Seg.Clean s) : normalize p = p := by
  obtain ⟨c0, ct, rfl⟩ := List.exists_cons_of_ne_nil hne
  have hc0 : c0 ≠ "" := (hcl c0 (by simp)).1
  have hp : (c0 :: ct) ≠ emptyPath := by
    intro h
    have := List.cons.injEq c0 ct "" [] ▸ h
    simp at this
    exact hc0 this.1
  have hA : isAbsolute (c0 :: ct) = false := isAbsolute_of_head_ne c0 ct hc0
  have hT : endsWithSep (c0 :: ct) = false := by
    obtain ⟨cs, c, hcc⟩ : ∃ cs c, c0 :: ct = cs ++ [c] := by
      rcases List.eq_nil_or_concat (c0 :: ct) with h | ⟨cs, c, h⟩
      · cases h
      · exact ⟨cs, c, by simpa [List.concat_eq_append] using h⟩
    rw [hcc]
    exact endsWithSep_concat_clean cs c (hcl c (by rw [hcc]; simp)).1
  have hcore : normSegs true (c0 :: ct) = c0 :: ct := normSegs_of_clean true _ hcl
  unfold normalize
  simp [hp, hA, hT, hcore]

theorem absShape_normalizedPath (g : GlobPatternM) (cwd : PathStr) (hcwd : CleanAbs cwd) :
    AbsShape (g.normalizedPath cwd) := by
  simp only [GlobPatternM.normalizedPath]
  by_cases h1 : g.magicPrefix = [] ∨ g.magicPrefix = [""]
  · rw [if_pos h1]
    exact absShape_cleanAbs cwd hcwd
  · rw [if_neg h1]
    by_cases h2 : isAbsolute g.magicPrefix = true
    · rw [if_pos h2]
      exact absShape_normalize_abs _ h2
    · rw [if_neg h2]
      push_neg at h1
      obtain ⟨l, hleq, hlne, hlcl⟩ := hcwd
      have hj : join2 cwd g.magicPrefix = normalize (cwd ++ g.magicPrefix) := by
        unfold join2 joinList
        simp [(cleanAbs_ne cwd ⟨l, hleq, hlne, hlcl⟩).2,
          show g.magicPrefix ≠ emptyPath from h1.2]
      have habs : isAbsolute (cwd ++ g.magicPrefix) = true := by
        rw [hleq, List.cons_append]
        exact isAbsolute_cons_empty _ (by simp [hlne])
      rw [hj, normalize_absShape_id _ (absShape_normalize_abs _ habs)]
      exact absShape_normalize_abs _ habs

end Cpy

namespace Cpy

/-- `normalize` and `join` never return the empty list or the empty
string. -/
theorem normalize_ne (p : PathStr) : normalize p ≠ [] ∧ normalize p ≠ emptyPath := by
  unfold normalize
  by_cases hp : p = emptyPath
  · simp [hp, emptyPath]
  · rw [if_neg hp]
    by_cases hA : isAbsolute p = true
    · simp only [hA]
      by_cases hc : normSegs false p = []
      · simp [hc, emptyPath]
      · cases hT : endsWithSep p <;> simp [hc, hT, emptyPath]
    · have hA' : isAbsolute p = false := by simpa using hA
      simp only [hA']
      by_cases hc : normSegs true p = []
      · cases hT : endsWithSep p <;> simp [hc, hT, emptyPath]
      · obtain ⟨c0, ct, hcc⟩ := List.exists_cons_of_ne_nil hc
        have hc0 : c0 ≠ "" := (normSegs_true_good p c0 (by rw [hcc]; simp)).1
        cases hT : endsWithSep p <;> simp [hc, hT, emptyPath, hcc, hc0]

theorem joinList_ne (parts : List PathStr) :
    joinList parts ≠ [] ∧ joinList parts ≠ emptyPath := by
  unfold joinList
  cases h : (parts.filter (fun p => p ≠ emptyPath)) with
  | nil => simp [emptyPath]
  | cons a l => exact normalize_ne _

/-- `path.join(A, '', rs)` is `path.join(A, rs)`. -/
theorem join3_empty_mid (A rs : PathStr) : join3 A emptyPath rs = join2 A rs := by
  unfold join3 join2 joinList
  have hf : [A, emptyPath, rs] = [A] ++ [emptyPath] ++ [rs] := rfl
  have hf2 : [A, rs] = [A] ++ [rs] := rfl
  rw [hf, hf2, List.filter_append, List.filter_append, List.filter_append]
  simp

/-- `path.join(A, '.')` resolves like `A`. -/
theorem canonSegs_join2_dot (cwd A : PathStr) (hA : A ≠ []) :
    canonSegs cwd (join2 A ["."]) = canonSegs cwd A := by
  by_cases hAe : A = emptyPath
  · subst hAe
    rw [show join2 emptyPath ["."] = normalize ["."] by unfold join2 joinList; simp [emptyPath],
      show normalize ["."] = ["."] from rfl, canonSegs_dot, canonSegs_emptyPath]
  · have hAe' : A ≠ [""] := by simpa [emptyPath] using hAe
    have hj : join2 A ["."] = normalize (A ++ ["."]) := by
      unfold join2 joinList
      simp [hAe', emptyPath]
    rw [hj, canonSegs_normalize]
    unfold canonSegs
    rw [isAbsolute_append A ["."] hA hAe (by simp)]
    by_cases h : isAbsolute A = true
    · rw [if_pos h, if_pos h, normSegs_append_dot]
    · rw [if_neg h, if_neg h, ← List.append_assoc, normSegs_append_dot]

end Cpy

namespace Cpy

theorem join2_eq_normalize (A B : PathStr) (hA : A ≠ emptyPath) (hB : B ≠ emptyPath) :
    join2 A B = normalize (A ++ B) := by
  unfold join2 joinList
  simp [hA, hB]

theorem join2_eq_normalize_left (A : PathStr) (hA : A ≠ emptyPath) :
    join2 A emptyPath = normalize A := by
  unfold join2 joinList
  simp [hA]

theorem resolveCwdRelativePathForGlob_clean (e : Entry) (o : Options)
    (hcwd : CleanAbs o.cwd) (hpath : CleanAbs e.path) :
    resolveCwdRelativePathForGlob e o = emptyPath ∨
      ((∀ s ∈ resolveCwdRelativePathForGlob e o, Seg.Clean s) ∧
        resolveCwdRelativePathForGlob e o ≠ []) := by
  unfold resolveCwdRelativePathForGlob
  cases h1 : relativizeWithin o.cwd e.path with
  | some r =>
    simp only [h1]
    exact relativizeWithin_clean _ _ r h1
  | none =>
    simp only [h1]
    cases h2 : relativizeWithin (e.pattern.normalizedPath o.cwd) e.path with
    | none =>
      simp only [h2]
      right
      refine ⟨?_, by simp⟩
      intro s hs
      simp only [List.mem_singleton] at hs
      rw [hs]
      exact basename_cleanAbs _ hpath
    | some r =>
      simp only [h2]
      by_cases hg : basename (e.pattern.normalizedPath o.cwd) = ""
      · rw [if_pos hg]
        exact relativizeWithin_clean _ _ r h2
      · rw [if_neg hg]
        have hgne : ([basename (e.pattern.normalizedPath o.cwd)] : PathStr) ≠ emptyPath := by
          simp [emptyPath, hg]
        have hgc : Seg.Clean (basename (e.pattern.normalizedPath o.cwd)) := by
          rcases basename_absShape _ (absShape_normalizedPath e.pattern o.cwd hcwd) with h | h
          · exact absurd h hg
          · exact h
        rcases relativizeWithin_clean _ _ r h2 with rfl | ⟨hrc, hrne⟩
        · rw [join2_eq_normalize_left _ hgne,
            normalize_of_clean _ (by simp)
              (by intro s hs; simp only [List.mem_singleton] at hs; rw [hs]; exact hgc)]
          right
          refine ⟨?_, by simp⟩
          intro s hs
          simp only [List.mem_singleton] at hs
          rw [hs]
          exact hgc
        · have hrne' : r ≠ emptyPath := by
            intro h
            exact (hrc "" (by rw [h]; simp [emptyPath])).1 rfl
          have hcl : ∀ s ∈ ([basename (e.pattern.normalizedPath o.cwd)] : PathStr) ++ r,
              Seg.Clean s := by
            intro s hs
            rcases List.mem_append.mp hs with h | h
            · simp only [List.mem_singleton] at h
              rw [h]
              exact hgc
            · exact hrc s h
          rw [join2_eq_normalize _ r hgne hrne', normalize_of_clean _ (by simp) hcl]
          right
          exact ⟨hcl, by simp⟩

end Cpy

namespace Cpy

/-- Every destination `computeToForGlob` produces resolves inside the
resolved destination root. -/
theorem computeToForGlob_within_root (e : Entry) (destination : PathStr) (o : Options)
    (hcwd : CleanAbs o.cwd) (hpath : CleanAbs e.path) (hdest : destination ≠ []) :
    canonSegs o.cwd destination <+: canonSegs o.cwd (computeToForGlob e destination o) := by
  have key : ∀ X : PathStr, (X = emptyPath ∨ ((∀ s ∈ X, Seg.Clean s) ∧ X ≠ [])) →
      canonSegs o.cwd destination <+: canonSegs o.cwd (join2 destination X) := by
    intro X hX
    rcases hX with rfl | ⟨hcl, hne⟩
    · rw [canonSegs_join2_empty]
    · rw [canonSegs_join2 o.cwd destination X hdest hcl hne]
      exact List.prefix_append _ _
  have hname : ∀ c : String, Seg.Clean c →
      ([c] : PathStr) = emptyPath ∨ ((∀ s ∈ ([c] : PathStr), Seg.Clean s) ∧ ([c] : PathStr) ≠ []) := by
    intro c hc
    right
    exact ⟨by intro s hs; simp only [List.mem_singleton] at hs; rw [hs]; exact hc, by simp⟩
  unfold computeToForGlob
  by_cases hflat : o.flat = true
  · rw [if_pos hflat]
    by_cases habs : isAbsolute destination = true
    · rw [if_pos habs]
      exact key [e.name] (hname e.name (basename_cleanAbs _ hpath))
    · rw [if_neg habs]
      rw [canonSegs_join3 o.cwd o.cwd destination [e.name] (cleanAbs_ne _ hcwd).1 hdest
        (by intro s hs; simp only [List.mem_singleton] at hs; rw [hs]
            exact basename_cleanAbs _ hpath)
        (by simp)]
      rw [canonSegs_join2_cwd o.cwd destination hcwd (by simpa using habs)]
      exact List.prefix_append _ _
  · rw [if_neg hflat]
    have hrel : (if o.base = some BaseMode.cwd then resolveCwdRelativePathForGlob e o
        else resolveRelativePath [e.pattern.normalizedPath o.cwd, o.cwd] e.path) = emptyPath ∨
        ((∀ s ∈ (if o.base = some BaseMode.cwd then resolveCwdRelativePathForGlob e o
          else resolveRelativePath [e.pattern.normalizedPath o.cwd, o.cwd] e.path), Seg.Clean s) ∧
          (if o.base = some BaseMode.cwd then resolveCwdRelativePathForGlob e o
          else resolveRelativePath [e.pattern.normalizedPath o.cwd, o.cwd] e.path) ≠ []) := by
      by_cases hb : o.base = some BaseMode.cwd
      · rw [if_pos hb]
        exact resolveCwdRelativePathForGlob_clean e o hcwd hpath
      · rw [if_neg hb]
        exact resolveRelativePath_clean _ _ (basename_cleanAbs _ hpath)
    by_cases hsc : isSelfCopy (resolveAbs e.path)
        (join2 destination (if o.base = some BaseMode.cwd then resolveCwdRelativePathForGlob e o
          else resolveRelativePath [e.pattern.normalizedPath o.cwd, o.cwd] e.path)) o.cwd = true
    · rw [if_pos hsc]
      cases halt : relativizeWithin o.cwd e.path with
      | none =>
        simp only [halt]
        by_cases hsc2 : isSelfCopy (resolveAbs e.path)
            (join2 destination [basename e.path]) o.cwd = true
        · rw [if_pos hsc2]
          exact key [basename e.path] (hname _ (basename_cleanAbs _ hpath))
        · rw [if_neg hsc2]
          exact key [basename e.path] (hname _ (basename_cleanAbs _ hpath))
      | some r =>
        simp only [halt]
        by_cases hre : r = emptyPath
        · rw [if_pos hre]
          by_cases hsc2 : isSelfCopy (resolveAbs e.path)
              (join2 destination [basename e.path]) o.cwd = true
          · rw [if_pos hsc2]
            exact key [basename e.path] (hname _ (basename_cleanAbs _ hpath))
          · rw [if_neg hsc2]
            exact key [basename e.path] (hname _ (basename_cleanAbs _ hpath))
        · rw [if_neg hre]
          by_cases hsc2 : isSelfCopy (resolveAbs e.path) (join2 destination r) o.cwd = true
          · rw [if_pos hsc2]
            exact key [basename e.path] (hname _ (basename_cleanAbs _ hpath))
          · rw [if_neg hsc2]
            rcases relativizeWithin_clean _ _ r halt with h | h
            · exact absurd h hre
            · exact key r (Or.inr h)
    · rw [if_neg hsc]
      exact key _ hrel

end Cpy

namespace Cpy

/-- A middle `path.join` component as produced by the symlink/basename
nesting logic: empty, `"."`, or clean segments. -/
def MidOk (M : PathStr) : Prop :=
  M ≠ [] ∧ (M = emptyPath ∨ M = ["."] ∨ ∀ s ∈ M, Seg.Clean s)

/-- Root containment for `join2 B X` against a base `B` that resolves
like the destination root. -/
theorem join2_within (cwd B X dst : PathStr) (hBne : B ≠ [])
    (hBeq : canonSegs cwd B = canonSegs cwd dst)
    (hX : X = emptyPath ∨ ((∀ s ∈ X, Seg.Clean s) ∧ X ≠ [])) :
    canonSegs cwd dst <+: canonSegs cwd (join2 B X) := by
  rcases hX with rfl | ⟨hcl, hne⟩
  · rw [canonSegs_join2_empty, hBeq]
  · rw [canonSegs_join2 cwd B X hBne hcl hne, hBeq]
    exact List.prefix_append _ _

/-- Root containment for `join2 B M` with a `MidOk` component. -/
theorem join2_mid_within (cwd B M dst : PathStr) (hBne : B ≠ [])
    (hBeq : canonSegs cwd B = canonSegs cwd dst) (hM : MidOk M) :
    canonSegs cwd dst <+: canonSegs cwd (join2 B M) := by
  obtain ⟨hMne, hMcase⟩ := hM
  rcases hMcase with rfl | rfl | hMcl
  · rw [canonSegs_join2_empty, hBeq]
  · rw [canonSegs_join2_dot cwd B hBne, hBeq]
  · rw [canonSegs_join2 cwd B M hBne hMcl hMne, hBeq]
    exact List.prefix_append _ _

/-- Root containment for `join3 B M X`. -/
theorem join3_within (cwd B M X dst : PathStr) (hBne : B ≠ [])
    (hBeq : canonSegs cwd B = canonSegs cwd dst) (hM : MidOk M)
    (hX : X = emptyPath ∨ ((∀ s ∈ X, Seg.Clean s) ∧ X ≠ [])) :
    canonSegs cwd dst <+: canonSegs cwd (join3 B M X) := by
  rcases hX with rfl | ⟨hXcl, hXne⟩
  · rw [join3_empty_last]
    exact join2_mid_within cwd B M dst hBne hBeq hM
  · rw [canonSegs_join3 cwd B M X hBne hM.1 hXcl hXne]
    exact (join2_mid_within cwd B M dst hBne hBeq hM).trans (List.prefix_append _ _)

theorem computeToForNonGlobAfterSymlink_within_root (e : Entry) (B : PathStr) (o : Options)
    (hcwd : CleanAbs o.cwd) (hpath : CleanAbs e.path) (dst : PathStr) (hBne : B ≠ [])
    (hBeq : canonSegs o.cwd B = canonSegs o.cwd dst)
    (hdir : e.pattern.isDirectory = true → relativizeWithin o.cwd e.path = none →
      startsWithDotDot (relative (resolve o.cwd e.pattern.originalPath) e.path) = false)
    (hflatbn : e.pattern.isDirectory = false → o.flat = true →
      basename e.pattern.originalPath ≠ "..") :
    canonSegs o.cwd dst <+: canonSegs o.cwd (computeToForNonGlobAfterSymlink e B o) := by
  unfold computeToForNonGlobAfterSymlink
  by_cases h1 : e.pattern.isDirectory = true ∧ ¬ (relativizeWithin o.cwd e.path).isSome = true
  · rw [if_pos h1]
    have habs : AbsShape (resolve o.cwd e.pattern.originalPath) := by
      rcases resolve_shape o.cwd e.pattern.originalPath with h | ⟨core, hq, hne, hcl⟩
      · exact Or.inl h
      · exact Or.inr ⟨core, hne, hcl, Or.inl hq⟩
    have hM : MidOk [basename (resolve o.cwd e.pattern.originalPath)] := by
      refine ⟨by simp, ?_⟩
      rcases basename_absShape _ habs with h | h
      · left
        rw [h]
        rfl
      · right
        right
        intro s hs
        simp only [List.mem_singleton] at hs
        rw [hs]
        exact h
    exact join3_within o.cwd B _ _ dst hBne hBeq hM
      (relative_clean_of_not_dotdot _ _
        (hdir h1.1 (Option.not_isSome_iff_eq_none.mp h1.2)))
  · rw [if_neg h1]
    by_cases h2 : ¬ e.pattern.isDirectory = true ∧ o.flat = true
    · rw [if_pos h2]
      have hbn : basename e.pattern.originalPath ≠ ".." :=
        hflatbn (by simpa using h2.1) h2.2
      have hM : MidOk [basename e.pattern.originalPath] := by
        refine ⟨by simp, ?_⟩
        by_cases hb1 : basename e.pattern.originalPath = ""
        · left
          rw [hb1]
          rfl
        · by_cases hb2 : basename e.pattern.originalPath = "."
          · right
            left
            rw [hb2]
          · right
            right
            intro s hs
            simp only [List.mem_singleton] at hs
            rw [hs]
            exact ⟨hb1, hb2, hbn⟩
      exact join2_mid_within o.cwd B _ dst hBne hBeq hM
    · rw [if_neg h2]
      cases h3 : relativizeWithin o.cwd e.path with
      | none =>
        simp only [h3]
        refine join2_within o.cwd B _ dst hBne hBeq (Or.inr ⟨?_, by simp⟩)
        intro s hs
        simp only [List.mem_singleton] at hs
        rw [hs]
        exact basename_cleanAbs _ hpath
      | some r =>
        simp only [h3]
        exact join2_within o.cwd B _ dst hBne hBeq (relativizeWithin_clean _ _ r h3)

end Cpy

namespace Cpy

/-- Root containment for `computeToForNonGlob`, under the matcher and
constructor invariants, plus the exclusion of the `..`-basename symlink
nesting (which genuinely escapes, see the C2 counterexample). -/
theorem computeToForNonGlob_within_root (e : Entry) (destination : PathStr) (o : Options)
    (hcwd : CleanAbs o.cwd) (hpath : CleanAbs e.path)
    (hdest : destination ≠ []) (hdest' : destination ≠ emptyPath)
    (hsymrel : ∀ r, e.pattern.symlinkRelative = some r →
      r = emptyPath ∨ ((∀ s ∈ r, Seg.Clean s) ∧ r ≠ []))
    (hsymbn : e.pattern.symlinkTarget.isSome = true → e.pattern.symlinkRelative = none →
      basename e.pattern.originalPath ≠ "..")
    (hdir : e.pattern.isDirectory = true → relativizeWithin o.cwd e.path = none →
      (∀ target, e.pattern.symlinkTarget = some target →
        startsWithDotDot (relative target e.path) = true ∨
          isAbsolute (relative target e.path) = true) →
      startsWithDotDot (relative (resolve o.cwd e.pattern.originalPath) e.path) = false)
    (hflatbn : e.pattern.isDirectory = false → o.flat = true →
      basename e.pattern.originalPath ≠ "..") :
    canonSegs o.cwd destination <+: canonSegs o.cwd (computeToForNonGlob e destination o) := by
  have hBeq : canonSegs o.cwd
      (if isAbsolute destination then destination else join2 o.cwd destination)
      = canonSegs o.cwd destination := by
    by_cases h : isAbsolute destination = true
    · rw [if_pos h]
    · rw [if_neg h]
      exact canonSegs_join2_cwd o.cwd destination hcwd (by simpa using h)
  have hBne : (if isAbsolute destination then destination else join2 o.cwd destination) ≠ [] := by
    by_cases h : isAbsolute destination = true
    · rw [if_pos h]
      exact hdest
    · rw [if_neg h]
      exact (joinList_ne _).1
  unfold computeToForNonGlob
  by_cases hb : o.base = some BaseMode.pattern
  · rw [if_pos hb]
    exact join2_within o.cwd _ _ destination hBne hBeq
      (resolveRelativePath_clean _ _ (basename_cleanAbs _ hpath))
  · rw [if_neg hb]
    cases hst : e.pattern.symlinkTarget with
    | none =>
      simp only [hst]
      exact computeToForNonGlobAfterSymlink_within_root e _ o hcwd hpath destination
        hBne hBeq (fun hd hrc => hdir hd hrc
          (fun t ht => absurd (hst.symm.trans ht) (by simp))) hflatbn
    | some target =>
      simp only [hst]
      by_cases hd : e.pattern.isDirectory = true
      · rw [if_pos hd]
        by_cases hchk : ¬ startsWithDotDot (relative target e.path) = true ∧
            ¬ isAbsolute (relative target e.path) = true
        · rw [if_pos hchk]
          have hX := relative_clean_of_not_dotdot target e.path (by simpa using hchk.1)
          have hM : MidOk (e.pattern.symlinkRelative.getD [basename e.pattern.originalPath]) := by
            cases hsr : e.pattern.symlinkRelative with
            | some r =>
              simp only [hsr, Option.getD_some]
              rcases hsymrel r hsr with rfl | ⟨hcl, hne⟩
              · exact ⟨by simp [emptyPath], Or.inl rfl⟩
              · exact ⟨hne, Or.inr (Or.inr hcl)⟩
            | none =>
              simp only [hsr, Option.getD_none]
              have hbn : basename e.pattern.originalPath ≠ ".." :=
                hsymbn (by simp [hst]) hsr
              refine ⟨by simp, ?_⟩
              by_cases hb1 : basename e.pattern.originalPath = ""
              · left
                rw [hb1]
                rfl
              · by_cases hb2 : basename e.pattern.originalPath = "."
                · right
                  left
                  rw [hb2]
                · right
                  right
                  intro s hs
                  simp only [List.mem_singleton] at hs
                  rw [hs]
                  exact ⟨hb1, hb2, hbn⟩
          exact join3_within o.cwd _ _ _ destination hBne hBeq hM hX
        · rw [if_neg hchk]
          refine computeToForNonGlobAfterSymlink_within_root e _ o hcwd hpath destination
            hBne hBeq (fun hd' hrc => hdir hd' hrc (fun t ht => ?_)) hflatbn
          have hte : t = target := by
            have h := hst.symm.trans ht
            injection h with h
            exact h.symm
          rw [hte]
          by_cases hA : startsWithDotDot (relative target e.path) = true
          · exact Or.inl hA
          · refine Or.inr ?_
            by_contra hB
            exact hchk ⟨hA, hB⟩
      · rw [if_neg hd]
        exact computeToForNonGlobAfterSymlink_within_root e _ o hcwd hpath destination
          hBne hBeq (fun hd' _ => absurd hd' hd) hflatbn

/-- Root containment for the whole destination mapper. -/
theorem preprocessDestinationPath_within_root (e : Entry) (destination : PathStr) (o : Options)
    (hcwd : CleanAbs o.cwd) (hpath : CleanAbs e.path)
    (hdest : destination ≠ []) (hdest' : destination ≠ emptyPath)
    (hsymrel : ∀ r, e.pattern.symlinkRelative = some r →
      r = emptyPath ∨ ((∀ s ∈ r, Seg.Clean s) ∧ r ≠ []))
    (hsymbn : e.pattern.symlinkTarget.isSome = true → e.pattern.symlinkRelative = none →
      basename e.pattern.originalPath ≠ "..")
    (hdir : e.pattern.isDirectory = true → relativizeWithin o.cwd e.path = none →
      (∀ target, e.pattern.symlinkTarget = some target →
        startsWithDotDot (relative target e.path) = true ∨
          isAbsolute (relative target e.path) = true) →
      startsWithDotDot (relative (resolve o.cwd e.pattern.originalPath) e.path) = false)
    (hflatbn : e.pattern.isDirectory = false → o.flat = true →
      basename e.pattern.originalPath ≠ "..") :
    canonSegs o.cwd destination <+:
      canonSegs o.cwd (preprocessDestinationPath e destination o) := by
  unfold preprocessDestinationPath
  by_cases hm : e.pattern.hasMagic o.flat = true
  · rw [if_pos hm]
    exact computeToForGlob_within_root e destination o hcwd hpath hdest
  · rw [if_neg hm]
    exact computeToForNonGlob_within_root e destination o hcwd hpath hdest hdest'
      hsymrel hsymbn hdir hflatbn

end Cpy

namespace Cpy

/-!
## Claim theorems
-/

/-- C1: For every entry, the self-copy check runs as the final step
after rename resolution: whatever destination the rename step yields
(literal string or arbitrary callback result), if it resolves (against
the cwd) to the same path as the source, `resolveDestinationPaths`
rejects with the dedicated self-copy error
(`Refusing to copy to itself: …`), and `copyFileMapper` then propagates
the error without invoking the copy primitive for that entry (so the
source content is untouched); conversely any successful resolution is
not a self-copy, so no rename can bypass the check. -/
theorem claim_C1 (e : Entry) (destination : PathStr) (o : Options) (rename : Rename)
    (totalFiles : ℕ) (sie : Bool) (copyFile : Entry → PathStr → CopyOutcome)
    (s : ProgressState) :
    (∀ d, renameFile e.path (preprocessDestinationPath e destination o) rename = .ok d →
      isSelfCopy e.path d o.cwd = true →
      resolveDestinationPaths e destination o rename = .error (.selfCopy e.path) ∧
      copyFileMapper totalFiles destination o rename sie copyFile e s
        = .error (.selfCopy e.path)) ∧
    (∀ p, resolveDestinationPaths e destination o rename = .ok p →
      resolveCopyPath p.destinationPath o.cwd ≠ resolveCopyPath e.path o.cwd) := by
  constructor
  · intro d hd hsc
    have herr : resolveDestinationPaths e destination o rename = .error (.selfCopy e.path) := by
      simp only [resolveDestinationPaths, hd]
      simp only [Except.bind, Bind.bind]
      rw [if_pos hsc]
    refine ⟨herr, ?_⟩
    unfold copyFileMapper
    rw [herr]
  · intro p hp
    cases hr : renameFile e.path (preprocessDestinationPath e destination o) rename with
    | error err =>
      simp only [resolveDestinationPaths, hr, Except.bind, Bind.bind] at hp
      cases hp
    | ok d =>
      simp only [resolveDestinationPaths, hr, Except.bind, Bind.bind] at hp
      by_cases hsc : isSelfCopy e.path d o.cwd = true
      · rw [if_pos hsc] at hp
        cases hp
      · rw [if_neg hsc] at hp
        have hpd : p.destinationPath = d := by
          cases hp
          rfl
        rw [hpd]
        intro hcontra
        exact hsc (by simpa [isSelfCopy] using hcontra)

/-- C8: With an empty final entry list, the copy phase emits exactly
one terminal progress event (`totalFiles = 0`, `completedFiles = 0`,
`completedSize = 0`, `percent = 1`, empty source/destination paths) and
resolves successfully with the empty destination list. -/
theorem claim_C8 (destination : PathStr) (o : Options) (rename : Rename) (sie : Bool)
    (copyFile : Entry → PathStr → CopyOutcome) :
    cpyRun [] destination o rename sie copyFile
      = (.ok [], [⟨0, 1, 0, 0, emptyPath, emptyPath⟩]) := rfl

end Cpy

namespace Cpy

/-!
## Concrete fixtures for witnesses and counterexamples
-/

/-- A literal (non-magic) pattern `f.txt`. -/
def literalPattern : GlobPatternM := { originalPath := ["f.txt"], path := ["f.txt"] }

/-- Entry `/cw/f.txt` matched by `f.txt`. -/
def literalEntry : Entry :=
  { path := ["", "cw", "f.txt"], relativePath := ["f.txt"], pattern := literalPattern }

/-- Options with cwd `/cw`. -/
def cwOptions : Options := { cwd := ["", "cw"] }

/-- The glob pattern `X/**`. -/
def globPattern1 : GlobPatternM := { originalPath := ["X", "**"], path := ["X", "**"] }

/-- Entry `/cw/X/a/b.ext` matched by `X/**`. -/
def globEntry1 : Entry :=
  { path := ["", "cw", "X", "a", "b.ext"], relativePath := ["X", "a", "b.ext"],
    pattern := globPattern1 }

/-- A directory pattern `..` that is a followed symlink to `/x`,
outside the cwd `/a/b` (its cwd-relative name starts with `..`, so
`symlinkRelative` is unset). -/
def symlinkDotDotPattern : GlobPatternM :=
  { originalPath := [".."], path := ["..", "..", "x", "**"], isDirectory := true,
    symlinkTarget := some ["", "x"], symlinkRelative := none }

/-- Entry `/x/f.txt` matched through the symlinked directory. -/
def symlinkDotDotEntry : Entry :=
  { path := ["", "x", "f.txt"], relativePath := ["..", "..", "x", "f.txt"],
    pattern := symlinkDotDotPattern }

/-- Options with cwd `/a/b`. -/
def abOptions : Options := { cwd := ["", "a", "b"] }

theorem claim_C1_witness :
    resolveDestinationPaths literalEntry ["."] cwOptions Rename.none
        = .error (.selfCopy ["", "cw", "f.txt"]) ∧
    copyFileMapper 1 ["."] cwOptions Rename.none false (fun _ _ => .success [])
        literalEntry ⟨[], 0, 0⟩ = .error (.selfCopy ["", "cw", "f.txt"]) :=
  (claim_C1 literalEntry ["."] cwOptions Rename.none 1 false (fun _ _ => .success [])
    ⟨[], 0, 0⟩).1 ["", "cw", "f.txt"] rfl rfl

/-- C2 (counterexample): with cwd `/a/b`, destination `dest`, and the
literal directory pattern `..` being a followed symlink to `/x` lying
outside the cwd, the file `/x/f.txt` is mapped to `/a/b/f.txt` — the
operation succeeds (no self-copy) yet the resolved destination root
`/a/b/dest` is not a prefix of the resolved produced path, refuting the
claim as stated. -/
theorem claim_C2_counterexample :
    resolveDestinationPaths symlinkDotDotEntry ["dest"] abOptions Rename.none
        = .ok ⟨["", "a", "b", "f.txt"], ["", "a", "b", "f.txt"]⟩ ∧
    ¬ (canonSegs ["", "a", "b"] ["dest"] <+: canonSegs ["", "a", "b"] ["", "a", "b", "f.txt"]) := by
  constructor
  · rfl
  · decide

/-- C2 (amended): under the invariants the matcher and `GlobPattern`
constructor establish (absolute clean cwd and entry paths, nonempty
destination, clean `symlinkRelative`), every destination the mapper
produces resolves inside the resolved destination root (`canonSegs` is
the segment list of `path.resolve` against the cwd), EXCEPT in the
escaping cases the hypotheses exclude: a symlinked directory whose
`symlinkRelative` is unset nesting under `basename(originalPath)` when
that basename is `..` (the counterexample), the analogous flat literal
with basename `..`, and the out-of-cwd directory fallback when the
entry does not lie under `resolve(cwd, originalPath)` — reached for a
followed symlink only when the target interception itself fell through
(entry not under the real target, or its target-relative name
string-starts with `..`), where the emitted `path.relative` component
climbs.  Followed-symlink directory entries that nest under the target
normally are covered, as the witness shows. -/
theorem claim_C2 (e : Entry) (destination : PathStr) (o : Options)
    (hcwd : CleanAbs o.cwd) (hpath : CleanAbs e.path)
    (hdest : destination ≠ []) (hdest' : destination ≠ emptyPath)
    (hsymrel : ∀ r, e.pattern.symlinkRelative = some r →
      r = emptyPath ∨ ((∀ s ∈ r, Seg.Clean s) ∧ r ≠ []))
    (hsymbn : e.pattern.symlinkTarget.isSome = true → e.pattern.symlinkRelative = none →
      basename e.pattern.originalPath ≠ "..")
    (hdir : e.pattern.isDirectory = true → relativizeWithin o.cwd e.path = none →
      (∀ target, e.pattern.symlinkTarget = some target →
        startsWithDotDot (relative target e.path) = true ∨
          isAbsolute (relative target e.path) = true) →
      startsWithDotDot (relative (resolve o.cwd e.pattern.originalPath) e.path) = false)
    (hflatbn : e.pattern.isDirectory = false → o.flat = true →
      basename e.pattern.originalPath ≠ "..") :
    canonSegs o.cwd destination <+:
      canonSegs o.cwd (preprocessDestinationPath e destination o) :=
  preprocessDestinationPath_within_root e destination o hcwd hpath hdest hdest'
    hsymrel hsymbn hdir hflatbn

/-- A directory pattern `mylink`, a followed symlink to `/x` whose
cwd-relative name is clean, so `symlinkRelative` is set. -/
def mylinkPattern : GlobPatternM :=
  { originalPath := ["mylink"], path := ["..", "..", "x", "**"], isDirectory := true,
    symlinkTarget := some ["", "x"], symlinkRelative := some ["mylink"] }

/-- Entry `/x/f.txt` matched through the `mylink` symlink. -/
def mylinkEntry : Entry :=
  { path := ["", "x", "f.txt"], relativePath := ["..", "..", "x", "f.txt"],
    pattern := mylinkPattern }

theorem claim_C2_witness :
    (canonSegs abOptions.cwd ["dest"] <+:
      canonSegs abOptions.cwd (preprocessDestinationPath mylinkEntry ["dest"] abOptions)) ∧
    preprocessDestinationPath mylinkEntry ["dest"] abOptions
      = ["", "a", "b", "dest", "mylink", "f.txt"] :=
  ⟨claim_C2 mylinkEntry ["dest"] abOptions
    ⟨["a", "b"], rfl, by simp, by decide⟩
    ⟨["x", "f.txt"], rfl, by simp, by decide⟩
    (by simp) (by decide)
    (by
      intro r hr
      injection hr with h
      subst h
      exact Or.inr ⟨by decide, by decide⟩)
    (fun _ h => absurd h (by decide))
    (fun _ _ hft => absurd (hft ["", "x"] rfl) (by decide))
    (fun h _ => absurd h (by decide)),
    rfl⟩

end Cpy

namespace Cpy

theorem absShape_isAbsolute (q : PathStr) (h : AbsShape q) : isAbsolute q = true := by
  rcases h with rfl | ⟨core, hne, hcl, hq | hq⟩
  · rfl
  · rw [hq]
    exact isAbsolute_cons_empty core hne
  · rw [hq]
    exact isAbsolute_cons_empty _ (by simp)

/-- Appending one clean segment to an absolute path and normalizing
yields the root, the normalized segments, then the new segment. -/
theorem normalize_abs_concat_clean (X : PathStr) (nm : String)
    (hX : isAbsolute X = true) (hnm : Seg.Clean nm) :
    normalize (X ++ [nm]) = "" :: (normSegs false X ++ [nm]) := by
  have hXne : X ≠ [] := by
    intro h
    rw [h] at hX
    cases hX
  have hXe : X ≠ emptyPath := by
    intro h
    rw [h] at hX
    cases hX
  have hp : X ++ [nm] ≠ emptyPath := by
    intro h
    have hlen := congrArg List.length h
    simp [emptyPath] at hlen
    exact hXne hlen
  have habs : isAbsolute (X ++ [nm]) = true := by
    rw [isAbsolute_append X [nm] hXne hXe (by simp)]
    exact hX
  have hT : endsWithSep (X ++ [nm]) = false := endsWithSep_concat_clean X nm hnm.1
  have hcore : normSegs false (X ++ [nm]) = normSegs false X ++ [nm] :=
    normSegs_append_clean false X [nm]
      (by intro s hs; simp only [List.mem_singleton] at hs; rw [hs]; exact hnm)
  unfold normalize
  simp [hp, habs, hT, hcore]

/-- Normalizing does not change the canonical segments of an absolute
path. -/
theorem normSegs_false_normalize_abs (p : PathStr) (h : isAbsolute p = true) :
    normSegs false (normalize p) = normSegs false p := by
  have h2 := canonSegs_normalize [] p
  unfold canonSegs at h2
  rw [if_pos h, if_pos (absShape_isAbsolute _ (absShape_normalize_abs p h))] at h2
  exact h2

theorem join3_eq_normalize (A B C : PathStr) (hA : A ≠ emptyPath) (hB : B ≠ emptyPath)
    (hC : C ≠ emptyPath) : join3 A B C = normalize (A ++ B ++ C) := by
  unfold join3 joinList
  simp [hA, hB, hC]

theorem resolveAbs_of_cleanAbs (p : PathStr) (h : CleanAbs p) : resolveAbs p = p := by
  obtain ⟨l, rfl, hne, hcl⟩ := h
  unfold resolveAbs
  rw [normSegs_cons_empty, normSegs_of_clean false l hcl]
  simp [hne]

end Cpy

namespace Cpy

/-- The claim's description of the flat mapping:
`destinationRoot/<basename of entry>`, a relative destination root
being first resolved against the cwd. -/
def specFlatDestination (e : Entry) (destination : PathStr) (o : Options) : PathStr :=
  join2 (resolveCopyPath destination o.cwd) [e.name]

/-- C5: for every entry of a dynamic pattern under `flat: true`, the
produced destination is exactly `destinationRoot/<basename>` with a
relative root resolved against the cwd (string-level equality with the
claim's description), so all source directory structure is discarded
and two same-named entries collide on the same destination path. -/
theorem claim_C5 (e : Entry) (destination : PathStr) (o : Options)
    (hm : e.pattern.hasMagic o.flat = true) (hflat : o.flat = true)
    (hcwd : CleanAbs o.cwd) (hname : Seg.Clean e.name)
    (hdest : destination ≠ []) (hdest' : destination ≠ emptyPath) :
    preprocessDestinationPath e destination o = specFlatDestination e destination o ∧
    ∀ e2 : Entry, e2.pattern.hasMagic o.flat = true → e2.name = e.name →
      preprocessDestinationPath e2 destination o = preprocessDestinationPath e destination o := by
  have key : ∀ e' : Entry, e'.pattern.hasMagic o.flat = true → Seg.Clean e'.name →
      preprocessDestinationPath e' destination o
        = join2 (resolveCopyPath destination o.cwd) [e'.name] := by
    intro e' hm' hnm'
    have hnmne : ([e'.name] : PathStr) ≠ emptyPath := by
      simp [emptyPath, hnm'.1]
    unfold preprocessDestinationPath
    rw [if_pos hm']
    unfold computeToForGlob
    rw [if_pos hflat]
    unfold resolveCopyPath
    by_cases habs : isAbsolute destination = true
    · rw [if_pos habs, if_pos habs]
      rw [join2_eq_normalize destination [e'.name] hdest' hnmne,
        join2_eq_normalize (normalize destination) [e'.name] (normalize_ne destination).2 hnmne,
        normalize_abs_concat_clean destination e'.name habs hnm',
        normalize_abs_concat_clean (normalize destination) e'.name
          (absShape_isAbsolute _ (absShape_normalize_abs destination habs)) hnm',
        normSegs_false_normalize_abs destination habs]
    · have habs' : isAbsolute destination = false := by simpa using habs
      rw [if_neg habs, if_neg habs]
      obtain ⟨l, hleq, hlne, hlcl⟩ := hcwd
      have hcwdne : o.cwd ≠ emptyPath := (cleanAbs_ne o.cwd ⟨l, hleq, hlne, hlcl⟩).2
      have hcwdabs : isAbsolute (o.cwd ++ destination) = true := by
        rw [hleq, List.cons_append]
        exact isAbsolute_cons_empty _ (by simp [hlne])
      rw [join3_eq_normalize o.cwd destination [e'.name] hcwdne hdest' hnmne,
        normalize_abs_concat_clean (o.cwd ++ destination) e'.name hcwdabs hnm']
      have hres : resolve o.cwd destination
          = (if normSegs false (o.cwd ++ destination) = [] then (["", ""] : PathStr)
             else "" :: normSegs false (o.cwd ++ destination)) := by
        simp only [resolve]
        rw [if_neg (show ¬ isAbsolute destination = true by simp [habs'])]
      by_cases hc : normSegs false (o.cwd ++ destination) = []
      · rw [hres, if_pos hc,
          join2_eq_normalize ["", ""] [e'.name] (by simp [emptyPath]) hnmne,
          normalize_abs_concat_clean ["", ""] e'.name rfl hnm', hc,
          normSegs_false_pair_empty]
      · rw [hres, if_neg hc,
          join2_eq_normalize ("" :: normSegs false (o.cwd ++ destination)) [e'.name]
            (by intro h
                have hlen := congrArg List.length h
                simp [emptyPath] at hlen
                exact hc hlen) hnmne,
          normalize_abs_concat_clean _ e'.name (isAbsolute_cons_empty _ hc) hnm',
          normSegs_cons_empty, normSegs_of_clean false _ (normSegs_false_clean _)]
  refine ⟨key e hm hname, ?_⟩
  intro e2 hm2 hn2
  rw [key e hm hname, key e2 hm2 (by rw [hn2]; exact hname), hn2]

end Cpy

namespace Cpy

/-- Options with cwd `/cw` and `flat: true`. -/
def cwFlatOptions : Options := { cwd := ["", "cw"], flat := true }

theorem claim_C5_witness :
    preprocessDestinationPath globEntry1 ["D"] cwFlatOptions
      = specFlatDestination globEntry1 ["D"] cwFlatOptions :=
  (claim_C5 globEntry1 ["D"] cwFlatOptions rfl rfl
    ⟨["cw"], rfl, by simp, by decide⟩ (by decide) (by simp) (by decide)).1

theorem basename_singleton (c : String) (hc : c ≠ "") : basename [c] = c := by
  simp [basename, hc]

theorem dirname_ne (p : PathStr) : dirname p ≠ [] ∧ dirname p ≠ emptyPath := by
  simp only [dirname]
  by_cases hp : p = emptyPath
  · simp [hp, emptyPath]
  · rw [if_neg hp]
    cases hfront : List.dropLast ((p.reverse.dropWhile (fun s => s = "")).reverse) with
    | nil =>
      simp only [hfront]
      by_cases hr : p.head? = some "" <;> simp [hr, emptyPath]
    | cons a l =>
      simp only [hfront]
      by_cases hall : (a :: l).all (fun s => s = "") = true
      · rw [if_pos hall]
        refine ⟨by simp, ?_⟩
        intro h
        have hlen := congrArg List.length h
        simp [emptyPath] at hlen
      · rw [if_neg hall]
        refine ⟨by simp, ?_⟩
        intro h
        rw [show emptyPath = [""] from rfl] at h
        injection h with h1 h2
        exact hall (by simp [h1, h2])

theorem basename_normalize_concat (D : PathStr) (c : String) (hD : D ≠ [])
    (hc : Seg.Clean c) : basename (normalize (D ++ [c])) = c := by
  have hp : D ++ [c] ≠ emptyPath := by
    intro h
    have hlen := congrArg List.length h
    simp [emptyPath] at hlen
    exact hD hlen
  have hT : endsWithSep (D ++ [c]) = false := endsWithSep_concat_clean _ _ hc.1
  have hcore : ∀ b, normSegs b (D ++ [c]) = normSegs b D ++ [c] := fun b =>
    normSegs_append_clean b D [c]
      (by intro s hs; simp only [List.mem_singleton] at hs; rw [hs]; exact hc)
  have hcne : ∀ b, normSegs b (D ++ [c]) ≠ [] := by
    intro b
    rw [hcore b]
    simp
  unfold normalize
  rw [if_neg hp]
  by_cases hA : isAbsolute (D ++ [c]) = true
  · simp only [hA, Bool.not_true, hT, Bool.false_eq_true, if_false, if_neg (hcne false),
      hcore, if_true, if_neg (show ¬(normSegs false D ++ [c] = []) by simp)]
    rw [show ("" :: (normSegs false D ++ [c]) : PathStr) = ("" :: normSegs false D) ++ [c]
      from rfl, basename_concat _ c hc.1]
  · have hA' : isAbsolute (D ++ [c]) = false := by simpa using hA
    simp only [hA', Bool.not_false, hT, Bool.false_eq_true, if_false,
      hcore, if_neg (show ¬(normSegs true D ++ [c] = []) by simp)]
    rw [basename_concat _ c hc.1]

/-- C6: a literal string rename replaces only the final path segment.
Invalid strings (containing `/` or `\\`, or equal to `''`/`.`/`..`)
are rejected with a `TypeError` before any filesystem work; a valid
string `c` yields `path.join(dirname(destination), c)`, whose basename
is `c` and whose resolved parent directory is exactly the resolved
parent of the mapper's destination. -/
theorem claim_C6 (source d s : PathStr) (cwd : PathStr) (hcwd : CleanAbs cwd) :
    ((strIncludesSlash s = true ∨ strIncludesBackslash s = true ∨ s = [""] ∨ s = ["."]
        ∨ s = [".."]) →
      ∃ msg, renameFile source d (.str s) = .error (.typeError msg)) ∧
    (∀ c : String, s = [c] → Seg.Clean c → ('\\' : Char) ∉ c.data →
      renameFile source d (.str s) = .ok (join2 (dirname d) [c]) ∧
      basename (join2 (dirname d) [c]) = c ∧
      canonSegs cwd (join2 (dirname d) [c]) = canonSegs cwd (dirname d) ++ [c]) := by
  constructor
  · intro hbad
    simp only [renameFile, assertRenameBasename, assertBasename]
    by_cases h1 : strIncludesSlash s = true ∨ strIncludesBackslash s = true
    · exact ⟨"Rename must not contain path separators", by rw [if_pos h1]; rfl⟩
    · have h2 : s = [""] ∨ s = ["."] ∨ s = [".."] := by
        rcases hbad with h | h | h | h | h
        · exact absurd (Or.inl h) h1
        · exact absurd (Or.inr h) h1
        · exact Or.inl h
        · exact Or.inr (Or.inl h)
        · exact Or.inr (Or.inr h)
      exact ⟨"Rename must be a valid filename", by rw [if_neg h1, if_pos h2]; rfl⟩
  · rintro c rfl hc hbs
    have hok : renameFile source d (.str [c]) = .ok (join2 (dirname d) [c]) := by
      simp only [renameFile, assertRenameBasename, assertBasename]
      rw [if_neg (by simp only [strIncludesSlash, strIncludesBackslash]; simp; exact hbs),
        if_neg (by simp [hc.1, hc.2.1, hc.2.2]),
        if_neg (by simp [basename_singleton c hc.1])]
      rfl
    refine ⟨hok, ?_, ?_⟩
    · rw [join2_eq_normalize (dirname d) [c] (dirname_ne d).2 (by simp [emptyPath, hc.1])]
      exact basename_normalize_concat (dirname d) c (dirname_ne d).1 hc
    · exact canonSegs_join2 cwd (dirname d) [c] (dirname_ne d).1
        (by intro x hx; simp only [List.mem_singleton] at hx; rw [hx]; exact hc) (by simp)

theorem claim_C6_witness :
    renameFile ["", "s", "hello.js"] ["dest", "subdir", "foo.js"] (.str ["hi.js"])
        = .ok ["dest", "subdir", "hi.js"] ∧
    basename (["dest", "subdir", "hi.js"] : PathStr) = "hi.js" := by
  have h := (claim_C6 ["", "s", "hello.js"] ["dest", "subdir", "foo.js"] ["hi.js"]
    ["", "cw"] ⟨["cw"], rfl, by simp, by decide⟩).2 "hi.js" rfl (by decide) (by decide)
  refine ⟨?_, by decide⟩
  rw [h.1]
  rfl

end Cpy

namespace Cpy

/-- The claim's description of the non-flat glob mapping: destination
root joined with the entry's path relative to the pattern's glob
parent; on a self-copy collision, recomputed relative to the cwd; on a
second collision, the basename fallback. -/
def specGlobDestination (e : Entry) (destination : PathStr) (o : Options) : PathStr :=
  let globParent := e.pattern.normalizedPath o.cwd
  let d0 := join2 destination (relative globParent e.path)
  if isSelfCopy e.path d0 o.cwd then
    let d1 := join2 destination (relative o.cwd e.path)
    if isSelfCopy e.path d1 o.cwd then join2 destination [basename e.path]
    else d1
  else d0

/-- C3 (amended): for an entry of a dynamic pattern with `flat` unset
(and the default `base`), when `path.relative` yields a usable
(non-`..`-climbing) path from the glob parent to the entry, and
likewise a usable nonempty path from the cwd, the mapper's output is
exactly the claim's description: `destinationRoot ++
relative(globParent, entry)`, with the cwd-relative recomputation and
basename fallback on self-copy collisions.  When the entry is not
relativizable this way — e.g. it lies outside the cwd — the code's
fallback chain diverges from that description, as the counterexample
shows. -/
theorem claim_C3 (e : Entry) (destination : PathStr) (o : Options) (r r' : PathStr)
    (hm : e.pattern.hasMagic o.flat = true) (hflat : o.flat = false)
    (hbase : o.base ≠ some BaseMode.cwd) (hpath : CleanAbs e.path)
    (hgp : relativizeWithin (e.pattern.normalizedPath o.cwd) e.path = some r)
    (hcwd' : relativizeWithin o.cwd e.path = some r') (hr'e : r' ≠ emptyPath) :
    preprocessDestinationPath e destination o = specGlobDestination e destination o := by
  unfold preprocessDestinationPath
  rw [if_pos hm]
  simp only [computeToForGlob]
  rw [if_neg (show ¬ o.flat = true by simp [hflat])]
  have hrel : resolveRelativePath [e.pattern.normalizedPath o.cwd, o.cwd] e.path
      = relative (e.pattern.normalizedPath o.cwd) e.path := by
    simp only [resolveRelativePath, hgp]
    exact (relativizeWithin_eq_some _ _ r hgp).1
  have hfrom : resolveAbs e.path = e.path := resolveAbs_of_cleanAbs e.path hpath
  rw [if_neg hbase, hrel, hfrom]
  simp only [specGlobDestination]
  by_cases hsc1 : isSelfCopy e.path
      (join2 destination (relative (e.pattern.normalizedPath o.cwd) e.path)) o.cwd = true
  · rw [if_pos hsc1, if_pos hsc1]
    simp only [hcwd']
    rw [if_neg hr'e, (relativizeWithin_eq_some _ _ r' hcwd').1]
  · rw [if_neg hsc1, if_neg hsc1]

/-- The dynamic pattern `/x/deep/**`, whose glob parent `/x/deep` lies
outside the cwd `/a`. -/
def deepPattern : GlobPatternM :=
  { originalPath := ["", "x", "deep", "**"], path := ["", "x", "deep", "**"] }

/-- Entry `/x/deep/f.txt`, outside the cwd `/a`. -/
def deepEntry : Entry :=
  { path := ["", "x", "deep", "f.txt"], relativePath := ["..", "x", "deep", "f.txt"],
    pattern := deepPattern }

/-- Options with cwd `/a`. -/
def aOptions : Options := { cwd := ["", "a"] }

/-- C3 (counterexample): with cwd `/a`, pattern `/x/deep/**`,
destination `/x/deep` and entry `/x/deep/f.txt`, the first mapping is
the self-copy `/x/deep/f.txt`; the entry lies outside the cwd, so
`path.relative(cwd, entry)` starts with `..` and the code skips the
claimed cwd-relative recomputation, falling directly to the basename
fallback `/x/deep/f.txt` — while the claim's formula recomputes
relative to the cwd and produces `/x/x/deep/f.txt`.  The claim as
stated is therefore false for entries outside the cwd. -/
theorem claim_C3_counterexample :
    preprocessDestinationPath deepEntry ["", "x", "deep"] aOptions
        = ["", "x", "deep", "f.txt"] ∧
    specGlobDestination deepEntry ["", "x", "deep"] aOptions
        = ["", "x", "x", "deep", "f.txt"] ∧
    (["", "x", "deep", "f.txt"] : PathStr) ≠ ["", "x", "x", "deep", "f.txt"] :=
  ⟨rfl, rfl, by decide⟩

theorem claim_C3_witness :
    preprocessDestinationPath globEntry1 ["D"] cwOptions
        = specGlobDestination globEntry1 ["D"] cwOptions ∧
    preprocessDestinationPath globEntry1 ["D"] cwOptions = ["D", "a", "b.ext"] :=
  ⟨claim_C3 globEntry1 ["D"] cwOptions ["a", "b.ext"] ["X", "a", "b.ext"] rfl rfl
    (by decide) ⟨["cw", "X", "a", "b.ext"], rfl, by simp, by decide⟩ rfl rfl (by decide), rfl⟩

end Cpy

namespace Cpy

theorem getEntries_error_of_literal_nomatch (cwd : PathStr)
    (gm : GlobPatternM → Except String (List PathStr)) (ig : List PathStr) :
    ∀ patterns : List GlobPatternM, (∀ q ∈ patterns, ∃ ms, gm q = .ok ms) →
    ∀ p ∈ patterns, gm p = .ok [] → isDynamicPattern p.originalPath = false →
    ig.any isDynamicPattern = false →
    ∃ p' ∈ patterns, isDynamicPattern p'.originalPath = false ∧
      getEntries cwd gm ig patterns = .error (.fileDoesNotExist p'.originalPath) := by
  intro patterns
  induction patterns with
  | nil => intro _ p hp; exact absurd hp (List.not_mem_nil p)
  | cons q rest ih =>
    intro hall p hp hm hdyn hig
    by_cases hq : gm q = .ok [] ∧ isDynamicPattern q.originalPath = false
    · refine ⟨q, List.mem_cons_self q rest, hq.2, ?_⟩
      simp only [getEntries, hq.1]
      rw [if_pos (show _ ∧ _ by exact ⟨by simp, by simp [hq.2], by simp [hig]⟩)]
    · have hp' : p ∈ rest := by
        rcases List.mem_cons.mp hp with h | h
        · exact absurd ⟨h ▸ hm, h ▸ hdyn⟩ hq
        · exact h
      obtain ⟨p', hp'mem, hp'dyn, hres⟩ :=
        ih (fun r hr => hall r (List.mem_cons_of_mem _ hr)) p hp' hm hdyn hig
      refine ⟨p', List.mem_cons_of_mem _ hp'mem, hp'dyn, ?_⟩
      obtain ⟨ms, hms⟩ := hall q (List.mem_cons_self q rest)
      simp only [getEntries, hms]
      rw [if_neg ?hc, hres]
      case hc =>
        rintro ⟨hms0, hnd, _⟩
        exact hq ⟨hms0 ▸ hms, by simpa using hnd⟩

theorem getEntries_ok_of_dynamic_nomatch (cwd : PathStr)
    (gm : GlobPatternM → Except String (List PathStr)) (ig : List PathStr) :
    ∀ patterns : List GlobPatternM,
    (∀ q ∈ patterns, ∃ ms, gm q = .ok ms ∧ (ms = [] → isDynamicPattern q.originalPath = true)) →
    ∃ es, getEntries cwd gm ig patterns = .ok es := by
  intro patterns
  induction patterns with
  | nil => exact fun _ => ⟨[], rfl⟩
  | cons q rest ih =>
    intro hall
    obtain ⟨ms, hms, hdy⟩ := hall q (List.mem_cons_self q rest)
    obtain ⟨es, hes⟩ := ih (fun r hr => hall r (List.mem_cons_of_mem _ hr))
    refine ⟨ms.map (fun m => ⟨m, relative cwd m, q⟩) ++ es, ?_⟩
    simp only [getEntries, hms]
    rw [if_neg ?hc, hes]
    case hc =>
      rintro ⟨h0, hnd, _⟩
      exact hnd (hdy h0)

theorem getEntries_ok_nil (cwd : PathStr)
    (gm : GlobPatternM → Except String (List PathStr)) (ig : List PathStr) :
    ∀ patterns : List GlobPatternM,
    (∀ q ∈ patterns, gm q = .ok [] ∧ isDynamicPattern q.originalPath = true) →
    getEntries cwd gm ig patterns = .ok [] := by
  intro patterns
  induction patterns with
  | nil => exact fun _ => rfl
  | cons q rest ih =>
    intro hall
    obtain ⟨hms, hdy⟩ := hall q (List.mem_cons_self q rest)
    simp only [getEntries, hms]
    rw [if_neg ?hc, ih (fun r hr => hall r (List.mem_cons_of_mem _ hr))]
    rfl
    case hc =>
      rintro ⟨_, hnd, _⟩
      exact hnd hdy

/-- C4: when every pattern globs without throwing, a literal
(non-dynamic, non-directory-expansion) pattern with zero matches and no
dynamic ignore pattern makes `getEntries` fail with the
`fileDoesNotExist` error (a constructor distinct from `globFailure`),
before any entry reaches the copy stage; whereas when every zero-match
pattern is dynamic the collection succeeds, and with only zero-match
dynamic patterns it succeeds with no entries at all. -/
theorem claim_C4 (cwd : PathStr) (gm : GlobPatternM → Except String (List PathStr))
    (ig : List PathStr) (patterns : List GlobPatternM) :
    ((∀ q ∈ patterns, ∃ ms, gm q = .ok ms) →
      ∀ p ∈ patterns, gm p = .ok [] → isDynamicPattern p.originalPath = false →
        p.isDirectory = false → ig.any isDynamicPattern = false →
        ∃ p' ∈ patterns, isDynamicPattern p'.originalPath = false ∧
          getEntries cwd gm ig patterns = .error (.fileDoesNotExist p'.originalPath)) ∧
    ((∀ q ∈ patterns, ∃ ms, gm q = .ok ms ∧ (ms = [] → isDynamicPattern q.originalPath = true)) →
      ∃ es, getEntries cwd gm ig patterns = .ok es) ∧
    ((∀ q ∈ patterns, gm q = .ok [] ∧ isDynamicPattern q.originalPath = true) →
      getEntries cwd gm ig patterns = .ok []) :=
  ⟨fun hall p hp hm hdyn _ hig =>
      getEntries_error_of_literal_nomatch cwd gm ig patterns hall p hp hm hdyn hig,
    getEntries_ok_of_dynamic_nomatch cwd gm ig patterns,
    getEntries_ok_nil cwd gm ig patterns⟩

/-- A literal pattern `a.txt` for the C4 instance. -/
def litPat : GlobPatternM := { originalPath := ["a.txt"], path := ["a.txt"] }

/-- A dynamic pattern `*.txt` for the C4 instance. -/
def dynPat : GlobPatternM := { originalPath := ["*.txt"], path := ["*.txt"] }

/-- A glob collaborator that matches nothing. -/
def gmNone : GlobPatternM → Except String (List PathStr) := fun _ => .ok []

theorem claim_C4_witness :
    (∃ p' ∈ [litPat], isDynamicPattern p'.originalPath = false ∧
        getEntries ["", "cw"] gmNone [] [litPat] = .error (.fileDoesNotExist p'.originalPath)) ∧
    (∃ es, getEntries ["", "cw"] gmNone [] [dynPat] = .ok es) ∧
    getEntries ["", "cw"] gmNone [] [dynPat] = .ok [] :=
  ⟨(claim_C4 ["", "cw"] gmNone [] [litPat]).1 (fun q _ => ⟨[], rfl⟩) litPat
      (List.mem_singleton.mpr rfl) rfl rfl rfl rfl,
    (claim_C4 ["", "cw"] gmNone [] [dynPat]).2.1 (fun q hq => ⟨[], rfl, fun _ => by
      rw [List.mem_singleton.mp hq]; rfl⟩),
    (claim_C4 ["", "cw"] gmNone [] [dynPat]).2.2 (fun q hq => by
      rw [List.mem_singleton.mp hq]; exact ⟨rfl, rfl⟩)⟩

end Cpy

namespace Cpy

theorem ignoreExistingFilter_sound (destination : PathStr) (o : Options) (rename : Rename)
    (lstat : PathStr → Except String Unit) :
    ∀ (entries : List Entry) (seen : List PathStr) (kept : List Entry),
      ignoreExistingFilter destination o rename lstat entries seen = .ok kept →
      (∀ e' ∈ kept, ∃ p, resolveDestinationPaths e' destination o rename = .ok p ∧
        lstat p.resolvedDestinationPath = .error "ENOENT" ∧ p.resolvedDestinationPath ∉ seen) ∧
      kept.Pairwise (fun a b => ∀ pa pb,
        resolveDestinationPaths a destination o rename = .ok pa →
        resolveDestinationPaths b destination o rename = .ok pb →
        pa.resolvedDestinationPath ≠ pb.resolvedDestinationPath) := by
  intro entries
  induction entries with
  | nil =>
    intro seen kept h
    simp only [ignoreExistingFilter, Except.ok.injEq] at h
    subst h
    exact ⟨fun e' he' => absurd he' (List.not_mem_nil e'), List.Pairwise.nil⟩
  | cons e rest ih =>
    intro seen kept h
    simp only [ignoreExistingFilter] at h
    cases hrdp : resolveDestinationPaths e destination o rename with
    | error err => simp only [hrdp] at h; exact Except.noConfusion h
    | ok paths =>
      simp only [hrdp] at h
      by_cases hdup : paths.resolvedDestinationPath ∈ seen
      · rw [if_pos hdup] at h
        exact ih seen kept h
      · rw [if_neg hdup] at h
        cases hls : lstat paths.resolvedDestinationPath with
        | ok u =>
          simp only [hls] at h
          obtain ⟨h1, h2⟩ := ih _ kept h
          refine ⟨fun e' he' => ?_, h2⟩
          obtain ⟨p, hp, hl, hn⟩ := h1 e' he'
          exact ⟨p, hp, hl, fun hmem => hn (List.mem_append_left _ hmem)⟩
        | error code =>
          simp only [hls] at h
          by_cases hcode : code = "ENOENT"
          · rw [if_pos hcode] at h
            cases hrec : ignoreExistingFilter destination o rename lstat rest
                (seen ++ [paths.resolvedDestinationPath]) with
            | error err => simp only [hrec] at h; exact Except.noConfusion h
            | ok kept' =>
              simp only [hrec, Except.ok.injEq] at h
              subst h
              obtain ⟨h1, h2⟩ := ih _ kept' hrec
              constructor
              · intro e' he'
                rcases List.mem_cons.mp he' with rfl | he'
                · exact ⟨paths, hrdp, hcode ▸ hls, hdup⟩
                · obtain ⟨p, hp, hl, hn⟩ := h1 e' he'
                  exact ⟨p, hp, hl, fun hmem => hn (List.mem_append_left _ hmem)⟩
              · refine List.Pairwise.cons ?_ h2
                intro b hb pa pb hpa hpb
                rw [hrdp, Except.ok.injEq] at hpa
                obtain ⟨p, hp, hl, hn⟩ := h1 b hb
                rw [hp, Except.ok.injEq] at hpb
                subst hpa; subst hpb
                intro heq
                exact hn (List.mem_append_right _ (heq ▸ List.mem_singleton_self _))
          · rw [if_neg hcode] at h; exact Except.noConfusion h

/-- C10: (a) `ignoreExisting: true` forces `overwrite` to `false` in
the normalized options; (b) every entry the `ignoreExisting` pre-filter
keeps has a destination whose `lstat` failed with `ENOENT` (it does not
exist) and whose resolved destination is new — in particular kept
entries have pairwise distinct resolved destinations; (c) when the copy
primitive nevertheless fails with `EEXIST` or `EISDIR` under
`shouldIgnoreExisting`, the mapper succeeds with a single 100%-percent
zero-bytes progress event, `completedSize` unchanged, and a `none`
result that the copy loop omits from the returned destination list. -/
theorem claim_C10 (o : Options) (destination : PathStr) (rename : Rename)
    (lstat : PathStr → Except String Unit) (entries : List Entry) (seen : List PathStr)
    (kept : List Entry) (totalFiles : ℕ) (copyFile : Entry → PathStr → CopyOutcome)
    (e : Entry) (s : ProgressState) (code msg : String) (paths : ResolvedPaths) :
    (o.ignoreExisting = true → (normalizeOptions o).1.overwrite = some false) ∧
    (ignoreExistingFilter destination o rename lstat entries seen = .ok kept →
      (∀ e' ∈ kept, ∃ p, resolveDestinationPaths e' destination o rename = .ok p ∧
        lstat p.resolvedDestinationPath = .error "ENOENT" ∧ p.resolvedDestinationPath ∉ seen) ∧
      kept.Pairwise (fun a b => ∀ pa pb,
        resolveDestinationPaths a destination o rename = .ok pa →
        resolveDestinationPaths b destination o rename = .ok pb →
        pa.resolvedDestinationPath ≠ pb.resolvedDestinationPath)) ∧
    (resolveDestinationPaths e destination o rename = .ok paths →
      o.dryRun = false →
      copyFile e paths.destinationPath = .failure code msg →
      (code = "EEXIST" ∨ code = "EISDIR") →
      mapGet s.copyStatus (e.path, paths.destinationPath) = none →
      copyFileMapper totalFiles destination o rename true copyFile e s
          = .ok (⟨mapSet s.copyStatus (e.path, paths.destinationPath) ⟨0, 1⟩,
              s.completedFiles + 1, s.completedSize⟩,
            [⟨totalFiles, ((s.completedFiles + 1 : ℕ) : ℚ) / (totalFiles : ℚ),
              s.completedFiles + 1, s.completedSize, e.path, paths.resolvedDestinationPath⟩],
            none) ∧
      ∀ rest rs pds', cpyLoop totalFiles destination o rename true copyFile rest
          ⟨mapSet s.copyStatus (e.path, paths.destinationPath) ⟨0, 1⟩,
            s.completedFiles + 1, s.completedSize⟩ = (.ok rs, pds') →
        cpyLoop totalFiles destination o rename true copyFile (e :: rest) s
          = (.ok rs, ⟨totalFiles, ((s.completedFiles + 1 : ℕ) : ℚ) / (totalFiles : ℚ),
              s.completedFiles + 1, s.completedSize, e.path,
              paths.resolvedDestinationPath⟩ :: pds')) := by
  refine ⟨fun h => by simp [normalizeOptions, h],
    ignoreExistingFilter_sound destination o rename lstat entries seen kept, ?_⟩
  intro hrdp hdry hcf hcode hfresh
  have hmap : copyFileMapper totalFiles destination o rename true copyFile e s
      = .ok (⟨mapSet s.copyStatus (e.path, paths.destinationPath) ⟨0, 1⟩,
          s.completedFiles + 1, s.completedSize⟩,
        [⟨totalFiles, ((s.completedFiles + 1 : ℕ) : ℚ) / (totalFiles : ℚ),
          s.completedFiles + 1, s.completedSize, e.path, paths.resolvedDestinationPath⟩],
        none) := by
    simp only [copyFileMapper, hrdp]
    rw [if_neg (by simp [hdry])]
    simp only [hcf]
    rw [if_pos (show _ ∧ _ from ⟨by trivial, hcode⟩)]
    simp [fileProgressHandler, hfresh]
  refine ⟨hmap, fun rest rs pds' hloop => ?_⟩
  simp [cpyLoop, hmap, hloop]

/-- Options with cwd `/cw` and `ignoreExisting: true`. -/
def ieOptions : Options := { cwd := ["", "cw"], ignoreExisting := true }

/-- An `lstat` collaborator on which every path is absent. -/
def lstatNone : PathStr → Except String Unit := fun _ => .error "ENOENT"

/-- A copy primitive that always fails with `EEXIST`. -/
def cfEEXIST : Entry → PathStr → CopyOutcome := fun _ _ => .failure "EEXIST" "file exists"

theorem claim_C10_witness :
    (normalizeOptions ieOptions).1.overwrite = some false ∧
    ignoreExistingFilter ["dest"] ieOptions Rename.none lstatNone [literalEntry] []
        = .ok [literalEntry] ∧
    (∃ p, resolveDestinationPaths literalEntry ["dest"] ieOptions Rename.none = .ok p ∧
      lstatNone p.resolvedDestinationPath = .error "ENOENT" ∧
      p.resolvedDestinationPath ∉ ([] : List PathStr)) ∧
    (∃ s' pd, copyFileMapper 1 ["dest"] ieOptions Rename.none true cfEEXIST literalEntry
        ⟨[], 0, 0⟩ = .ok (s', [pd], none) ∧
      s'.completedSize = 0 ∧ s'.completedFiles = 1 ∧ pd.percent = 1 ∧
      cpyLoop 1 ["dest"] ieOptions Rename.none true cfEEXIST [literalEntry] ⟨[], 0, 0⟩
        = (.ok [], [pd])) := by
  obtain ⟨h1, h2, h3⟩ := claim_C10 ieOptions ["dest"] Rename.none lstatNone [literalEntry] []
    [literalEntry] 1 cfEEXIST literalEntry ⟨[], 0, 0⟩ "EEXIST" "file exists"
    ⟨["", "cw", "dest", "f.txt"], ["", "cw", "dest", "f.txt"]⟩
  obtain ⟨hmap, hloop⟩ := h3 rfl rfl rfl (Or.inl rfl) rfl
  refine ⟨h1 rfl, rfl, (h2 rfl).1 literalEntry (List.mem_singleton_self _), _, _, hmap,
    rfl, rfl, by norm_num, hloop [] [] [] rfl⟩

end Cpy

namespace Cpy

/-!
## Progress-stream invariants (C7)

`statusBytes`/`statusDone` are the measures the claim compares the
counters against: total bytes currently recorded per job, and the
number of jobs whose recorded percent is 1.
-/

/-- Sum of the per-job byte contributions recorded in `copyStatus`. -/
def statusBytes (m : List (StatusKey × FileStatus)) : ℚ :=
  (m.map (fun kv => kv.2.writtenBytes)).sum

/-- Number of jobs whose recorded percent is 1. -/
def statusDone (m : List (StatusKey × FileStatus)) : ℕ :=
  m.countP (fun kv => kv.2.percent = 1)

/-- The keys of the `copyStatus` map. -/
def statusKeys (m : List (StatusKey × FileStatus)) : List StatusKey :=
  m.map (fun kv => kv.1)

/-- `runProgress` from an arbitrary starting state. -/
def runFrom (t : ℕ) (s : ProgressState) (evs : List (StatusKey × CopyFileEvent)) :
    ProgressState :=
  evs.foldl (fun st kev => (fileProgressHandler t kev.1 kev.2 st).1) s

theorem runProgress_eq_runFrom (t : ℕ) (evs : List (StatusKey × CopyFileEvent)) :
    runProgress t evs = runFrom t ⟨[], 0, 0⟩ evs := rfl

theorem mapGet_none_not_mem (m : List (StatusKey × FileStatus)) (k : StatusKey)
    (h : mapGet m k = none) : ∀ kv ∈ m, kv.1 ≠ k := by
  intro kv hkv heq
  rw [mapGet, Option.map_eq_none'] at h
  exact absurd (List.find?_eq_none.mp h kv hkv) (by simp [heq])

theorem mapGet_some_mem (m : List (StatusKey × FileStatus)) (k : StatusKey) (st : FileStatus)
    (h : mapGet m k = some st) : ∃ kv ∈ m, kv.1 = k ∧ kv.2 = st := by
  rw [mapGet] at h
  obtain ⟨kv, hfind, hkv2⟩ := Option.map_eq_some'.mp h
  exact ⟨kv, List.mem_of_find?_eq_some hfind, by simpa using List.find?_some hfind, hkv2⟩

theorem mapSet_absent (m : List (StatusKey × FileStatus)) (k : StatusKey) (v : FileStatus)
    (h : mapGet m k = none) : mapSet m k v = m ++ [(k, v)] := by
  rw [mapSet, if_neg]
  intro hany
  obtain ⟨x, hx, hpx⟩ := List.any_eq_true.mp hany
  exact mapGet_none_not_mem m k h x hx (by simpa using hpx)

theorem mapSet_map_id (m : List (StatusKey × FileStatus)) (k : StatusKey) (v : FileStatus)
    (h : ∀ kv ∈ m, kv.1 ≠ k) :
    m.map (fun kv => if kv.1 = k then (k, v) else kv) = m := by
  induction m with
  | nil => rfl
  | cons kv m' ih =>
    rw [List.map_cons, if_neg (h kv (List.mem_cons_self kv m')),
      ih (fun kv' h' => h kv' (List.mem_cons_of_mem _ h'))]

theorem mem_mapSet (m : List (StatusKey × FileStatus)) (k : StatusKey) (v : FileStatus) :
    ∀ kv ∈ mapSet m k v, kv = (k, v) ∨ kv ∈ m := by
  intro kv hkv
  rw [mapSet] at hkv
  split at hkv
  · obtain ⟨x, hx, hfx⟩ := List.mem_map.mp hkv
    by_cases hxk : x.1 = k
    · left; rw [← hfx, if_pos hxk]
    · right; rw [← hfx, if_neg hxk]; exact hx
  · rcases List.mem_append.mp hkv with h | h
    · right; exact h
    · left; simpa using h

theorem mapSet_present (k : StatusKey) (v : FileStatus) :
    ∀ (m : List (StatusKey × FileStatus)) (st : FileStatus),
      (statusKeys m).Nodup → mapGet m k = some st →
      statusBytes (mapSet m k v) + st.writtenBytes = statusBytes m + v.writtenBytes ∧
      statusDone (mapSet m k v) + (if st.percent = 1 then 1 else 0)
          = statusDone m + (if v.percent = 1 then 1 else 0) ∧
      statusKeys (mapSet m k v) = statusKeys m := by
  intro m
  induction m with
  | nil => intro st _ h; rw [mapGet] at h; simp at h
  | cons kv m' ih =>
    intro st hnd hget
    have hany : (kv :: m').any (fun x => x.1 = k) = true := by
      obtain ⟨x, hx, hx1, _⟩ := mapGet_some_mem _ _ _ hget
      exact List.any_eq_true.mpr ⟨x, hx, by simp [hx1]⟩
    rw [mapSet, if_pos hany]
    have hnd2 : kv.1 ∉ statusKeys m' ∧ (statusKeys m').Nodup := by
      rw [statusKeys, List.map_cons, List.nodup_cons] at hnd
      exact hnd
    by_cases hk : kv.1 = k
    · have hst : kv.2 = st := by
        rw [mapGet, List.find?_cons_of_pos _ (by simp [hk])] at hget
        simpa using hget
      have hno : ∀ kv' ∈ m', kv'.1 ≠ k := by
        intro kv' h' heq
        have hmem : k ∈ statusKeys m' := by
          rw [← heq]; exact List.mem_map_of_mem _ h'
        exact hnd2.1 (hk ▸ hmem)
      rw [List.map_cons, if_pos hk, mapSet_map_id m' k v hno]
      subst hst
      refine ⟨?_, ?_, ?_⟩
      · simp [statusBytes]; ring
      · by_cases h1 : v.percent = 1 <;> by_cases h2 : kv.2.percent = 1 <;>
          simp [statusDone, List.countP_cons, h1, h2]
      · simp [statusKeys, hk]
    · have hget' : mapGet m' k = some st := by
        rw [mapGet, List.find?_cons_of_neg _ (by simp [hk])] at hget
        rw [mapGet]; exact hget
      obtain ⟨h1, h2, h3⟩ := ih st hnd2.2 hget'
      have hany' : m'.any (fun x => x.1 = k) = true := by
        obtain ⟨x, hx, hx1, _⟩ := mapGet_some_mem _ _ _ hget'
        exact List.any_eq_true.mpr ⟨x, hx, by simp [hx1]⟩
      have hms : m'.map (fun x => if x.1 = k then (k, v) else x) = mapSet m' k v := by
        rw [mapSet, if_pos hany']
      rw [List.map_cons, if_neg hk, hms]
      refine ⟨?_, ?_, ?_⟩
      · simp only [statusBytes, List.map_cons, List.sum_cons] at h1 ⊢
        linarith
      · simp only [statusDone, List.countP_cons] at h2 ⊢
        omega
      · simp only [statusKeys, List.map_cons] at h3 ⊢
        rw [h3]

end Cpy

namespace Cpy

theorem fileProgressHandler_mono (t : ℕ) (k : StatusKey) (ev : CopyFileEvent)
    (s : ProgressState) :
    s.completedFiles ≤ (fileProgressHandler t k ev s).1.completedFiles := by
  simp only [fileProgressHandler]
  split
  · dsimp only
    split
    · exact Nat.le_succ _
    · exact le_refl _
  · exact le_refl _

theorem runFrom_mono (t : ℕ) :
    ∀ (evs : List (StatusKey × CopyFileEvent)) (s : ProgressState),
      s.completedFiles ≤ (runFrom t s evs).completedFiles := by
  intro evs
  induction evs with
  | nil => intro s; exact le_refl _
  | cons kev rest ih =>
    intro s
    exact le_trans (fileProgressHandler_mono t kev.1 kev.2 s) (ih _)

theorem fileProgressHandler_step (t : ℕ) (k : StatusKey) (ev : CopyFileEvent)
    (s : ProgressState)
    (hnd : (statusKeys s.copyStatus).Nodup)
    (hsize : s.completedSize = statusBytes s.copyStatus)
    (hfiles : s.completedFiles = statusDone s.copyStatus)
    (hreg : ∀ st, mapGet s.copyStatus k = some st → st.percent = 1 → ev.percent = 1) :
    (statusKeys (fileProgressHandler t k ev s).1.copyStatus).Nodup ∧
    (fileProgressHandler t k ev s).1.completedSize
        = statusBytes (fileProgressHandler t k ev s).1.copyStatus ∧
    (fileProgressHandler t k ev s).1.completedFiles
        = statusDone (fileProgressHandler t k ev s).1.copyStatus ∧
    (∀ kv ∈ (fileProgressHandler t k ev s).1.copyStatus,
        kv ∈ s.copyStatus ∨ (kv.1 = k ∧ kv.2.percent = ev.percent)) := by
  simp only [fileProgressHandler]
  cases hget : mapGet s.copyStatus k with
  | none =>
    have hset : mapSet s.copyStatus k ⟨ev.writtenBytes, ev.percent⟩
        = s.copyStatus ++ [(k, ⟨ev.writtenBytes, ev.percent⟩)] := mapSet_absent _ _ _ hget
    have hnotmem := mapGet_none_not_mem _ _ hget
    simp only [hget, Option.getD_none]
    split
    · dsimp only
      rw [hset]
      refine ⟨?_, ?_, ?_, ?_⟩
      · simp only [statusKeys, List.map_append]
        refine List.nodup_append.mpr ⟨hnd, List.nodup_singleton _, ?_⟩
        intro a ha hb
        simp only [List.map_cons, List.map_nil, List.mem_singleton] at hb
        obtain ⟨kv, hkv, hkva⟩ := List.mem_map.mp ha
        exact hnotmem kv hkv (hkva.trans hb)
      · simp only [statusBytes, List.map_append, List.sum_append, List.map_cons,
          List.map_nil, List.sum_cons, List.sum_nil]
        rw [hsize]
        simp [statusBytes]
      · by_cases hp : ev.percent = 1 <;>
          simp [statusDone, List.countP_append, List.countP_cons, hfiles, hp]
      · intro kv hkv
        rcases List.mem_append.mp hkv with h | h
        · exact Or.inl h
        · simp only [List.mem_singleton] at h
          subst h
          exact Or.inr ⟨rfl, rfl⟩
    · exact ⟨hnd, hsize, hfiles, fun kv hkv => Or.inl hkv⟩
  | some st =>
    obtain ⟨hB, hD, hK⟩ := mapSet_present k ⟨ev.writtenBytes, ev.percent⟩ s.copyStatus st hnd hget
    simp only [hget, Option.getD_some]
    split
    · dsimp only
      refine ⟨?_, ?_, ?_, ?_⟩
      · rw [statusKeys] at hK ⊢
        rw [hK]
        exact hnd
      · have hB' := hB
        rw [hsize]
        dsimp only at hB' ⊢
        linarith
      · by_cases hsp : st.percent = 1
        · have hep : ev.percent = 1 := hreg st hget hsp
          rw [if_neg (by simp [hsp])]
          rw [if_pos hsp, if_pos hep] at hD
          omega
        · by_cases hep : ev.percent = 1
          · rw [if_pos ⟨hep, hsp⟩]
            rw [if_neg hsp, if_pos hep] at hD
            omega
          · rw [if_neg (by simp [hep])]
            rw [if_neg hsp, if_neg hep] at hD
            omega
      · intro kv hkv
        rcases mem_mapSet _ _ _ kv hkv with h | h
        · subst h
          exact Or.inr ⟨rfl, rfl⟩
        · exact Or.inl h
    · exact ⟨hnd, hsize, hfiles, fun kv hkv => Or.inl hkv⟩

end Cpy

namespace Cpy

theorem runFrom_append (t : ℕ) (s : ProgressState)
    (a b : List (StatusKey × CopyFileEvent)) :
    runFrom t s (a ++ b) = runFrom t (runFrom t s a) b := by
  simp only [runFrom, List.foldl_append]

theorem runFrom_invariant (t : ℕ) :
    ∀ (rest processed : List (StatusKey × CopyFileEvent)) (s : ProgressState),
      (statusKeys s.copyStatus).Nodup →
      s.completedSize = statusBytes s.copyStatus →
      s.completedFiles = statusDone s.copyStatus →
      (∀ kv ∈ s.copyStatus, ∃ a ∈ processed, a.1 = kv.1 ∧ a.2.percent = kv.2.percent) →
      ((processed ++ rest).Pairwise fun a b => a.1 = b.1 → a.2.percent = 1 → b.2.percent = 1) →
      (statusKeys (runFrom t s rest).copyStatus).Nodup ∧
      (runFrom t s rest).completedSize = statusBytes (runFrom t s rest).copyStatus ∧
      (runFrom t s rest).completedFiles = statusDone (runFrom t s rest).copyStatus ∧
      (∀ kv ∈ (runFrom t s rest).copyStatus,
          ∃ a ∈ processed ++ rest, a.1 = kv.1 ∧ a.2.percent = kv.2.percent) := by
  intro rest
  induction rest with
  | nil =>
    intro processed s hnd hsize hfiles hcons _
    exact ⟨hnd, hsize, hfiles, by rw [List.append_nil]; exact hcons⟩
  | cons kev rest' ih =>
    intro processed s hnd hsize hfiles hcons hpw
    have hacross : ∀ a ∈ processed, a.1 = kev.1 → a.2.percent = 1 → kev.2.percent = 1 := by
      intro a ha
      exact (List.pairwise_append.mp hpw).2.2 a ha kev (List.mem_cons_self kev rest')
    have hreg : ∀ st, mapGet s.copyStatus kev.1 = some st →
        st.percent = 1 → kev.2.percent = 1 := by
      intro st hget hst
      obtain ⟨kv, hkv, hkv1, hkv2⟩ := mapGet_some_mem _ _ _ hget
      obtain ⟨a, ha, ha1, ha2⟩ := hcons kv hkv
      exact hacross a ha (ha1.trans hkv1) (by rw [ha2, hkv2, hst])
    obtain ⟨hnd1, hsize1, hfiles1, hprov⟩ :=
      fileProgressHandler_step t kev.1 kev.2 s hnd hsize hfiles hreg
    have hcons1 : ∀ kv ∈ (fileProgressHandler t kev.1 kev.2 s).1.copyStatus,
        ∃ a ∈ processed ++ [kev], a.1 = kv.1 ∧ a.2.percent = kv.2.percent := by
      intro kv hkv
      rcases hprov kv hkv with h | ⟨h1, h2⟩
      · obtain ⟨a, ha, ha1, ha2⟩ := hcons kv h
        exact ⟨a, List.mem_append_left _ ha, ha1, ha2⟩
      · exact ⟨kev, List.mem_append_right _ (List.mem_singleton_self _), h1.symm, h2.symm⟩
    have hpw1 : ((processed ++ [kev]) ++ rest').Pairwise
        fun a b => a.1 = b.1 → a.2.percent = 1 → b.2.percent = 1 := by
      rw [← List.append_cons]
      exact hpw
    obtain ⟨h1, h2, h3, h4⟩ := ih (processed ++ [kev])
      (fileProgressHandler t kev.1 kev.2 s).1 hnd1 hsize1 hfiles1 hcons1 hpw1
    refine ⟨h1, h2, h3, ?_⟩
    intro kv hkv
    obtain ⟨a, ha, ha1, ha2⟩ := h4 kv hkv
    refine ⟨a, ?_, ha1, ha2⟩
    rw [← List.append_cons] at ha
    exact ha

/-- C7: over any event stream whose per-key percent reports never
regress from 1 (the pairwise hypothesis), the orchestrator counters
maintained by `fileProgressHandler` satisfy: `completedSize` equals the
sum of the per-job byte contributions currently recorded (each report
replaces, never adds to, its job's contribution, so duplicates never
double-count); `completedFiles` equals the number of jobs whose
recorded percent is 1 (each job counted exactly once, at its first
percent-1 report); `completedFiles` is non-decreasing under appending
further events; and when every recorded job has reached percent 1 and
the number of jobs equals `totalFiles`, `completedFiles = totalFiles`
and the reported overall percent is exactly 1. -/
theorem claim_C7 (t : ℕ) (events : List (StatusKey × CopyFileEvent))
    (hpw : events.Pairwise fun a b => a.1 = b.1 → a.2.percent = 1 → b.2.percent = 1) :
    (runProgress t events).completedSize = statusBytes (runProgress t events).copyStatus ∧
    (runProgress t events).completedFiles = statusDone (runProgress t events).copyStatus ∧
    (∀ more, (runProgress t events).completedFiles
        ≤ (runProgress t (events ++ more)).completedFiles) ∧
    ((∀ kv ∈ (runProgress t events).copyStatus, kv.2.percent = 1) →
      (runProgress t events).copyStatus.length = t →
      (runProgress t events).completedFiles = t ∧
      (0 < t → ((runProgress t events).completedFiles : ℚ) / (t : ℚ) = 1)) := by
  obtain ⟨hnd, hsize, hfiles, _⟩ := runFrom_invariant t events [] ⟨[], 0, 0⟩
    (by simp [statusKeys]) (by simp [statusBytes]) (by simp [statusDone])
    (fun kv hkv => absurd hkv (List.not_mem_nil kv))
    (by rw [List.nil_append]; exact hpw)
  rw [← runProgress_eq_runFrom] at hsize hfiles
  refine ⟨hsize, hfiles, ?_, ?_⟩
  · intro more
    rw [runProgress_eq_runFrom t (events ++ more), runFrom_append,
      ← runProgress_eq_runFrom t events]
    exact runFrom_mono t more _
  · intro hall hlen
    have hdone : statusDone (runProgress t events).copyStatus
        = (runProgress t events).copyStatus.length :=
      List.countP_eq_length.mpr (fun kv hkv => by simpa using hall kv hkv)
    constructor
    · rw [hfiles, hdone, hlen]
    · intro hpos
      rw [hfiles, hdone, hlen]
      exact div_self (by exact_mod_cast hpos.ne')

end Cpy

namespace Cpy

/-- A concrete two-job event stream: job 1 reports twice (a partial
report then completion), job 2 reports completion once. -/
def c7events : List (StatusKey × CopyFileEvent) :=
  [((["s1"], ["d1"]), ⟨5, 0, ["s1"], ["d1"]⟩),
   ((["s1"], ["d1"]), ⟨10, 1, ["s1"], ["d1"]⟩),
   ((["s2"], ["d2"]), ⟨7, 1, ["s2"], ["d2"]⟩)]

theorem claim_C7_witness :
    (runProgress 2 c7events).completedSize = statusBytes (runProgress 2 c7events).copyStatus ∧
    (runProgress 2 c7events).completedFiles = statusDone (runProgress 2 c7events).copyStatus ∧
    (runProgress 2 c7events).completedFiles = 2 ∧
    ((runProgress 2 c7events).completedFiles : ℚ) / (2 : ℚ) = 1 := by
  obtain ⟨h1, h2, _, h4⟩ := claim_C7 2 c7events (by decide)
  obtain ⟨h5, h6⟩ := h4 (by decide) (by decide)
  exact ⟨h1, h2, h5, h6 (by decide)⟩

end Cpy

namespace Cpy

/-!
## Candidate-map lemmas (C9)
-/

theorem candGet_none_not_mem (m : List (PathStr × Candidate)) (k : PathStr)
    (h : candGet m k = none) : ∀ kv ∈ m, kv.1 ≠ k := by
  intro kv hkv heq
  rw [candGet, Option.map_eq_none'] at h
  exact absurd (List.find?_eq_none.mp h kv hkv) (by simp [heq])

theorem candGet_some_mem (m : List (PathStr × Candidate)) (k : PathStr) (c : Candidate)
    (h : candGet m k = some c) : ∃ kv ∈ m, kv.1 = k ∧ kv.2 = c := by
  rw [candGet] at h
  obtain ⟨kv, hfind, hkv2⟩ := Option.map_eq_some'.mp h
  exact ⟨kv, List.mem_of_find?_eq_some hfind, by simpa using List.find?_some hfind, hkv2⟩

theorem candSet_absent (m : List (PathStr × Candidate)) (k : PathStr) (v : Candidate)
    (h : candGet m k = none) : candSet m k v = m ++ [(k, v)] := by
  rw [candSet, if_neg]
  intro hany
  obtain ⟨x, hx, hpx⟩ := List.any_eq_true.mp hany
  exact candGet_none_not_mem m k h x hx (by simpa using hpx)

theorem mem_candSet (m : List (PathStr × Candidate)) (k : PathStr) (v : Candidate) :
    ∀ kv ∈ candSet m k v, kv = (k, v) ∨ (kv ∈ m ∧ kv.1 ≠ k) := by
  intro kv hkv
  rw [candSet] at hkv
  split at hkv
  case isTrue hany =>
    obtain ⟨x, hx, hfx⟩ := List.mem_map.mp hkv
    by_cases hxk : x.1 = k
    · left; rw [← hfx, if_pos hxk]
    · right; rw [← hfx, if_neg hxk]; exact ⟨hx, hxk⟩
  case isFalse hany =>
    rcases List.mem_append.mp hkv with h | h
    · right
      refine ⟨h, fun heq => hany ?_⟩
      exact List.any_eq_true.mpr ⟨kv, h, by simp [heq]⟩
    · left; simpa using h

theorem candMap_id (m : List (PathStr × Candidate)) (k : PathStr) (v : Candidate)
    (h : ∀ kv ∈ m, kv.1 ≠ k) :
    m.map (fun kv => if kv.1 = k then (k, v) else kv) = m := by
  induction m with
  | nil => rfl
  | cons kv m' ih =>
    rw [List.map_cons, if_neg (h kv (List.mem_cons_self kv m')),
      ih (fun kv' h' => h kv' (List.mem_cons_of_mem _ h'))]

theorem candKeys_nodup_candSet (m : List (PathStr × Candidate)) (k : PathStr) (v : Candidate)
    (hnd : (m.map Prod.fst).Nodup) : ((candSet m k v).map Prod.fst).Nodup := by
  rw [candSet]
  split
  case isTrue hany =>
    have hmap : (m.map (fun kv => if kv.1 = k then (k, v) else kv)).map Prod.fst
        = m.map Prod.fst := by
      rw [List.map_map]
      refine List.map_congr_left ?_
      intro x hx
      by_cases hxk : x.1 = k
      · simp [Function.comp, hxk]
      · simp [Function.comp, hxk]
    rw [hmap]; exact hnd
  case isFalse hany =>
    rw [List.map_append]
    refine List.nodup_append.mpr ⟨hnd, by simp, ?_⟩
    intro a ha hb
    simp only [List.map_cons, List.map_nil, List.mem_singleton] at hb
    obtain ⟨x, hx, hxa⟩ := List.mem_map.mp ha
    have hx' : (m.any fun kv => kv.1 = k) = true :=
      List.any_eq_true.mpr ⟨x, hx, by simp [hxa, hb]⟩
    exact hany hx'

theorem candSet_cons_ne (kv : PathStr × Candidate) (m : List (PathStr × Candidate))
    (k : PathStr) (v : Candidate) (hk : kv.1 ≠ k) :
    candSet (kv :: m) k v = kv :: candSet m k v := by
  by_cases hany : m.any (fun x => x.1 = k) = true
  · rw [candSet, if_pos (by simp [List.any_cons, hany]), List.map_cons, if_neg hk,
      candSet, if_pos hany]
  · rw [candSet, if_neg ?h1, candSet, if_neg hany]
    · rfl
    case h1 =>
      intro hc
      rcases List.any_eq_true.mp hc with ⟨x, hx, hpx⟩
      rcases List.mem_cons.mp hx with rfl | hx'
      · exact hk (by simpa using hpx)
      · exact hany (List.any_eq_true.mpr ⟨x, hx', hpx⟩)

theorem candSet_cons_eq (kv : PathStr × Candidate) (m : List (PathStr × Candidate))
    (k : PathStr) (v : Candidate) (hk : kv.1 = k) :
    candSet (kv :: m) k v
      = (k, v) :: m.map (fun x => if x.1 = k then (k, v) else x) := by
  rw [candSet, if_pos (List.any_eq_true.mpr ⟨kv, List.mem_cons_self kv m, by simp [hk]⟩),
    List.map_cons, if_pos hk]

theorem candGet_cons (kv : PathStr × Candidate) (m : List (PathStr × Candidate))
    (k' : PathStr) :
    candGet (kv :: m) k' = if kv.1 = k' then some kv.2 else candGet m k' := by
  by_cases h : kv.1 = k'
  · rw [candGet, List.find?_cons_of_pos _ (by simp [h]), if_pos h]; rfl
  · rw [candGet, List.find?_cons_of_neg _ (by simp [h]), if_neg h]; rfl

theorem candGet_candSet_self (k : PathStr) (v : Candidate) :
    ∀ m, candGet (candSet m k v) k = some v := by
  intro m
  induction m with
  | nil =>
    rw [candSet, if_neg (by simp), List.nil_append, candGet_cons, if_pos rfl]
  | cons kv m' ih =>
    by_cases hk : kv.1 = k
    · rw [candSet_cons_eq kv m' k v hk, candGet_cons, if_pos rfl]
    · rw [candSet_cons_ne kv m' k v hk, candGet_cons, if_neg hk]
      exact ih

theorem candGet_candSet_ne (k : PathStr) (v : Candidate) (k' : PathStr) (hne : k' ≠ k) :
    ∀ m, candGet (candSet m k v) k' = candGet m k' := by
  intro m
  induction m with
  | nil =>
    rw [candSet, if_neg (by simp), List.nil_append, candGet_cons,
      if_neg (fun hc => hne hc.symm)]
  | cons kv m' ih =>
    by_cases hk : kv.1 = k
    · rw [candSet_cons_eq kv m' k v hk, candGet_cons,
        if_neg (fun hc => hne hc.symm), candGet_cons, if_neg (by rw [hk]; exact fun hc => hne hc.symm)]
      by_cases hany : m'.any (fun x => x.1 = k) = true
      · have hms : m'.map (fun x => if x.1 = k then (k, v) else x) = candSet m' k v := by
          rw [candSet, if_pos hany]
        rw [hms]
        exact ih
      · have hno : ∀ x ∈ m', x.1 ≠ k := by
          intro x hx heq
          exact hany (List.any_eq_true.mpr ⟨x, hx, by simp [heq]⟩)
        rw [candMap_id m' k v hno]
    · rw [candSet_cons_ne kv m' k v hk, candGet_cons, candGet_cons]
      by_cases hh : kv.1 = k'
      · rw [if_pos hh, if_pos hh]
      · rw [if_neg hh, if_neg hh]
        exact ih

theorem candGet_of_mem_nodup (m : List (PathStr × Candidate))
    (hnd : (m.map Prod.fst).Nodup) :
    ∀ kv ∈ m, candGet m kv.1 = some kv.2 := by
  induction m with
  | nil => intro kv h; exact absurd h (List.not_mem_nil kv)
  | cons a m' ih =>
    intro kv hkv
    rw [List.map_cons, List.nodup_cons] at hnd
    rcases List.mem_cons.mp hkv with rfl | h
    · rw [candGet_cons, if_pos rfl]
    · rw [candGet_cons]
      have hne : a.1 ≠ kv.1 := by
        intro heq
        exact hnd.1 (heq ▸ List.mem_map_of_mem Prod.fst h)
      rw [if_neg hne]
      exact ih hnd.2 kv h

theorem candGet_append_of_isSome (m l : List (PathStr × Candidate)) (k : PathStr)
    (h : (candGet m k).isSome = true) : candGet (m ++ l) k = candGet m k := by
  induction m with
  | nil => rw [candGet] at h; simp at h
  | cons a m' ih =>
    rw [List.cons_append, candGet_cons, candGet_cons]
    by_cases ha : a.1 = k
    · rw [if_pos ha, if_pos ha]
    · rw [if_neg ha, if_neg ha]
      rw [candGet_cons, if_neg ha] at h
      exact ih h

end Cpy

namespace Cpy

/-- Soundness of one `bestCandidateByDestination` binding: the
candidate records an already-processed entry mapping to this key,
either a genuine `shouldCopy` candidate carrying its source mtime, or
the `NEGATIVE_INFINITY` marker of a non-file destination. -/
def CandOk (ds : PathStr → DestState) (processed : List EntryData) (k : PathStr)
    (c : Candidate) : Prop :=
  ∃ ed ∈ processed, ed.resolvedDestinationPath = k ∧ c.entry = ed.entry ∧
    c.index = ed.index ∧
    ((∃ m, c.mtimeMs = some m ∧ m = ed.sourceStats.mtimeMs ∧
        shouldCopyUpdate ed.sourceStats (ds k) = true) ∨
      (c.mtimeMs = none ∧ ds k = .nonFile))

/-- The candidate lexicographically dominates (mtime, then index) every
processed `shouldCopy` entry mapping to its key. -/
def Dominates (ds : PathStr → DestState) (processed : List EntryData) (k : PathStr)
    (c : Candidate) : Prop :=
  ∀ ed ∈ processed, ed.resolvedDestinationPath = k →
    shouldCopyUpdate ed.sourceStats (ds k) = true →
    ∃ m, c.mtimeMs = some m ∧
      (ed.sourceStats.mtimeMs < m ∨ (ed.sourceStats.mtimeMs = m ∧ ed.index ≤ c.index))

/-- The loop invariant of the best-candidate fold. -/
def UpdateInv (ds : PathStr → DestState) (processed : List EntryData)
    (best : List (PathStr × Candidate)) : Prop :=
  (∀ kc ∈ best, CandOk ds processed kc.1 kc.2 ∧ Dominates ds processed kc.1 kc.2) ∧
  (best.map Prod.fst).Nodup ∧
  (∀ ed ∈ processed,
    (ds ed.resolvedDestinationPath = .nonFile ∨
      shouldCopyUpdate ed.sourceStats (ds ed.resolvedDestinationPath) = true) →
    (candGet best ed.resolvedDestinationPath).isSome = true)

theorem CandOk_weaken (ds : PathStr → DestState) (processed : List EntryData)
    (k : PathStr) (c : Candidate) (ed : EntryData) (h : CandOk ds processed k c) :
    CandOk ds (processed ++ [ed]) k c := by
  obtain ⟨e', he', h1, h2, h3, h4⟩ := h
  exact ⟨e', List.mem_append_left _ he', h1, h2, h3, h4⟩

theorem updateStep_inv_nonFile (ds : PathStr → DestState) (processed : List EntryData)
    (best : List (PathStr × Candidate)) (ed : EntryData)
    (h : UpdateInv ds processed best)
    (hds : ds ed.resolvedDestinationPath = .nonFile) :
    UpdateInv ds (processed ++ [ed]) (updateStep ds best ed) := by
  obtain ⟨hok, hnd, hcomp⟩ := h
  simp only [updateStep, hds]
  by_cases hsome : (candGet best ed.resolvedDestinationPath).isSome = true
  · rw [if_pos hsome]
    refine ⟨?_, hnd, ?_⟩
    · intro kc hkc
      obtain ⟨hok1, hdom1⟩ := hok kc hkc
      refine ⟨CandOk_weaken ds processed kc.1 kc.2 ed hok1, ?_⟩
      intro ed' hed' hkey hsc
      rcases List.mem_append.mp hed' with h' | h'
      · exact hdom1 ed' h' hkey hsc
      · simp only [List.mem_singleton] at h'
        subst h'
        rw [← hkey, hds] at hsc
        simp [shouldCopyUpdate] at hsc
    · intro ed' hed' hcond
      rcases List.mem_append.mp hed' with h' | h'
      · exact hcomp ed' h' hcond
      · simp only [List.mem_singleton] at h'
        subst h'
        exact hsome
  · rw [if_neg hsome]
    have hget : candGet best ed.resolvedDestinationPath = none :=
      Option.not_isSome_iff_eq_none.mp hsome
    refine ⟨?_, candKeys_nodup_candSet best _ _ hnd, ?_⟩
    · intro kc hkc
      rcases mem_candSet best _ _ kc hkc with h' | ⟨h', hkne⟩
      · subst h'
        refine ⟨⟨ed, List.mem_append_right _ (List.mem_singleton_self _), rfl, rfl, rfl,
          Or.inr ⟨rfl, hds⟩⟩, ?_⟩
        intro ed' hed' hkey hsc
        dsimp only at hkey hsc
        rw [hds] at hsc
        simp [shouldCopyUpdate] at hsc
      · obtain ⟨hok1, hdom1⟩ := hok kc h'
        refine ⟨CandOk_weaken ds processed kc.1 kc.2 ed hok1, ?_⟩
        intro ed' hed' hkey hsc
        rcases List.mem_append.mp hed' with h'' | h''
        · exact hdom1 ed' h'' hkey hsc
        · simp only [List.mem_singleton] at h''
          subst h''
          exact absurd hkey (fun heq => hkne heq.symm)
    · intro ed' hed' hcond
      rcases List.mem_append.mp hed' with h' | h'
      · by_cases hk : ed'.resolvedDestinationPath = ed.resolvedDestinationPath
        · rw [hk, candGet_candSet_self]
          rfl
        · rw [candGet_candSet_ne _ _ _ hk]
          exact hcomp ed' h' hcond
      · simp only [List.mem_singleton] at h'
        subst h'
        rw [candGet_candSet_self]
        rfl

/-- The non-`nonFile` arm of the candidate loop, as a standalone
function for case analysis. -/
def updateStepGeneral (dstState : PathStr → DestState)
    (best : List (PathStr × Candidate)) (ed : EntryData) : List (PathStr × Candidate) :=
  if shouldCopyUpdate ed.sourceStats (dstState ed.resolvedDestinationPath) then
    let isNewer :=
      match candGet best ed.resolvedDestinationPath with
      | none => true
      | some existing =>
        mtimeGt ed.sourceStats.mtimeMs existing.mtimeMs ∨
          (mtimeEq ed.sourceStats.mtimeMs existing.mtimeMs ∧ ed.index > existing.index)
    if isNewer then
      candSet best ed.resolvedDestinationPath ⟨ed.entry, ed.index, some ed.sourceStats.mtimeMs⟩
    else best
  else best

theorem updateStep_eq_general (dstState : PathStr → DestState)
    (best : List (PathStr × Candidate)) (ed : EntryData)
    (hds : dstState ed.resolvedDestinationPath ≠ .nonFile) :
    updateStep dstState best ed = updateStepGeneral dstState best ed := by
  cases hd : dstState ed.resolvedDestinationPath with
  | nonFile => exact absurd hd hds
  | absent => simp only [updateStep, updateStepGeneral, hd]
  | file m sz => simp only [updateStep, updateStepGeneral, hd]

end Cpy

namespace Cpy

theorem updateStepGeneral_inv (ds : PathStr → DestState) (processed : List EntryData)
    (best : List (PathStr × Candidate)) (ed : EntryData)
    (h : UpdateInv ds processed best)
    (hds : ds ed.resolvedDestinationPath ≠ .nonFile) :
    UpdateInv ds (processed ++ [ed]) (updateStepGeneral ds best ed) := by
  obtain ⟨hok, hnd, hcomp⟩ := h
  simp only [updateStepGeneral]
  by_cases hsc : shouldCopyUpdate ed.sourceStats (ds ed.resolvedDestinationPath) = true
  case neg =>
    rw [if_neg hsc]
    refine ⟨?_, hnd, ?_⟩
    · intro kc hkc
      obtain ⟨hok1, hdom1⟩ := hok kc hkc
      refine ⟨CandOk_weaken ds processed kc.1 kc.2 ed hok1, ?_⟩
      intro ed' hed' hkey hsc'
      rcases List.mem_append.mp hed' with h' | h'
      · exact hdom1 ed' h' hkey hsc'
      · simp only [List.mem_singleton] at h'
        subst ed'
        rw [← hkey] at hsc'
        exact absurd hsc' hsc
    · intro ed' hed' hcond
      rcases List.mem_append.mp hed' with h' | h'
      · exact hcomp ed' h' hcond
      · simp only [List.mem_singleton] at h'
        subst ed'
        rcases hcond with hc | hc
        · exact absurd hc hds
        · exact absurd hc hsc
  case pos =>
    rw [if_pos hsc]
    cases hget : candGet best ed.resolvedDestinationPath with
    | none =>
      simp only [hget]
      rw [if_pos (by trivial)]
      refine ⟨?_, candKeys_nodup_candSet best _ _ hnd, ?_⟩
      · intro kc hkc
        rcases mem_candSet best _ _ kc hkc with h' | ⟨h', hkne⟩
        · subst h'
          refine ⟨⟨ed, List.mem_append_right _ (List.mem_singleton_self _), rfl, rfl, rfl,
            Or.inl ⟨ed.sourceStats.mtimeMs, rfl, rfl, hsc⟩⟩, ?_⟩
          intro ed' hed' hkey hsc'
          dsimp only at hkey hsc' ⊢
          rcases List.mem_append.mp hed' with h'' | h''
          · have hfalse := hcomp ed' h'' (Or.inr (by rw [hkey]; exact hsc'))
            rw [hkey, hget] at hfalse
            simp at hfalse
          · simp only [List.mem_singleton] at h''
            subst ed'
            exact ⟨ed.sourceStats.mtimeMs, rfl, Or.inr ⟨rfl, le_refl _⟩⟩
        · obtain ⟨hok1, hdom1⟩ := hok kc h'
          refine ⟨CandOk_weaken ds processed kc.1 kc.2 ed hok1, ?_⟩
          intro ed' hed' hkey hsc'
          rcases List.mem_append.mp hed' with h'' | h''
          · exact hdom1 ed' h'' hkey hsc'
          · simp only [List.mem_singleton] at h''
            subst ed'
            exact absurd hkey (fun heq => hkne heq.symm)
      · intro ed' hed' hcond
        rcases List.mem_append.mp hed' with h' | h'
        · by_cases hk : ed'.resolvedDestinationPath = ed.resolvedDestinationPath
          · rw [hk, candGet_candSet_self]
            rfl
          · rw [candGet_candSet_ne _ _ _ hk]
            exact hcomp ed' h' hcond
        · simp only [List.mem_singleton] at h'
          subst ed'
          rw [candGet_candSet_self]
          rfl
    | some existing =>
      simp only [hget]
      obtain ⟨kvx, hkvx, hkvx1, hkvx2⟩ := candGet_some_mem best _ existing hget
      obtain ⟨hokx, hdomx⟩ := hok kvx hkvx
      rw [hkvx1, hkvx2] at hokx hdomx
      have hmex : ∃ mex, existing.mtimeMs = some mex ∧
          (∀ ed' ∈ processed, ed'.resolvedDestinationPath = ed.resolvedDestinationPath →
            shouldCopyUpdate ed'.sourceStats (ds ed.resolvedDestinationPath) = true →
            (ed'.sourceStats.mtimeMs < mex ∨
              (ed'.sourceStats.mtimeMs = mex ∧ ed'.index ≤ existing.index))) := by
        obtain ⟨e', he', h1, h2, h3, h4⟩ := hokx
        rcases h4 with ⟨mex, hm, _, _⟩ | ⟨_, hnf⟩
        · refine ⟨mex, hm, ?_⟩
          intro ed' hed' hkey hsc'
          obtain ⟨m', hm', hcase⟩ := hdomx ed' hed' hkey hsc'
          rw [hm] at hm'
          injection hm' with hmm
          subst hmm
          exact hcase
        · exact absurd hnf hds
      obtain ⟨mex, hmex_eq, hdom_ex⟩ := hmex
      by_cases hnew : (mtimeGt ed.sourceStats.mtimeMs existing.mtimeMs = true ∨
          (mtimeEq ed.sourceStats.mtimeMs existing.mtimeMs = true ∧
            ed.index > existing.index))
      · rw [if_pos (by simpa using hnew)]
        have hnew' : mex < ed.sourceStats.mtimeMs ∨
            (ed.sourceStats.mtimeMs = mex ∧ existing.index < ed.index) := by
          rcases hnew with hgt | ⟨heq, hidx⟩
          · rw [hmex_eq] at hgt
            simp only [mtimeGt, decide_eq_true_eq] at hgt
            exact Or.inl hgt
          · rw [hmex_eq] at heq
            simp only [mtimeEq, decide_eq_true_eq] at heq
            exact Or.inr ⟨heq, hidx⟩
        refine ⟨?_, candKeys_nodup_candSet best _ _ hnd, ?_⟩
        · intro kc hkc
          rcases mem_candSet best _ _ kc hkc with h' | ⟨h', hkne⟩
          · subst h'
            refine ⟨⟨ed, List.mem_append_right _ (List.mem_singleton_self _), rfl, rfl, rfl,
              Or.inl ⟨ed.sourceStats.mtimeMs, rfl, rfl, hsc⟩⟩, ?_⟩
            intro ed' hed' hkey hsc'
            dsimp only at hkey hsc' ⊢
            rcases List.mem_append.mp hed' with h'' | h''
            · have hcase := hdom_ex ed' h'' hkey hsc'
              refine ⟨ed.sourceStats.mtimeMs, rfl, ?_⟩
              rcases hcase with hlt | ⟨heq2, hle⟩
              · rcases hnew' with h3 | ⟨h3, _⟩
                · exact Or.inl (lt_trans hlt h3)
                · exact Or.inl (h3 ▸ hlt)
              · rcases hnew' with h3 | ⟨h3, hidx⟩
                · exact Or.inl (heq2 ▸ h3)
                · exact Or.inr ⟨heq2.trans h3.symm, le_trans hle (le_of_lt hidx)⟩
            · simp only [List.mem_singleton] at h''
              subst ed'
              exact ⟨ed.sourceStats.mtimeMs, rfl, Or.inr ⟨rfl, le_refl _⟩⟩
          · obtain ⟨hok1, hdom1⟩ := hok kc h'
            refine ⟨CandOk_weaken ds processed kc.1 kc.2 ed hok1, ?_⟩
            intro ed' hed' hkey hsc'
            rcases List.mem_append.mp hed' with h'' | h''
            · exact hdom1 ed' h'' hkey hsc'
            · simp only [List.mem_singleton] at h''
              subst ed'
              exact absurd hkey (fun heq => hkne heq.symm)
        · intro ed' hed' hcond
          rcases List.mem_append.mp hed' with h' | h'
          · by_cases hk : ed'.resolvedDestinationPath = ed.resolvedDestinationPath
            · rw [hk, candGet_candSet_self]
              rfl
            · rw [candGet_candSet_ne _ _ _ hk]
              exact hcomp ed' h' hcond
          · simp only [List.mem_singleton] at h'
            subst ed'
            rw [candGet_candSet_self]
            rfl
      · rw [if_neg (by simpa using hnew)]
        push_neg at hnew
        have hnew'' : ed.sourceStats.mtimeMs < mex ∨
            (ed.sourceStats.mtimeMs = mex ∧ ed.index ≤ existing.index) := by
          rcases lt_trichotomy ed.sourceStats.mtimeMs mex with hlt | heq | hgt
          · exact Or.inl hlt
          · refine Or.inr ⟨heq, ?_⟩
            have hB : mtimeEq ed.sourceStats.mtimeMs existing.mtimeMs = true := by
              rw [hmex_eq]
              simp only [mtimeEq, decide_eq_true_eq]
              exact heq
            have hnlt := hnew.2 hB
            omega
          · exfalso
            apply hnew.1
            rw [hmex_eq]
            simp only [mtimeGt, decide_eq_true_eq]
            exact hgt
        refine ⟨?_, hnd, ?_⟩
        · intro kc hkc
          obtain ⟨hok1, hdom1⟩ := hok kc hkc
          refine ⟨CandOk_weaken ds processed kc.1 kc.2 ed hok1, ?_⟩
          intro ed' hed' hkey hsc'
          rcases List.mem_append.mp hed' with h'' | h''
          · exact hdom1 ed' h'' hkey hsc'
          · simp only [List.mem_singleton] at h''
            subst ed'
            have hkc2 : kc.2 = existing := by
              have h1 := candGet_of_mem_nodup best hnd kc hkc
              rw [← hkey] at h1
              rw [hget] at h1
              injection h1 with h1
              exact h1.symm
            rw [hkc2]
            exact ⟨mex, hmex_eq, hnew''⟩
        · intro ed' hed' hcond
          rcases List.mem_append.mp hed' with h' | h'
          · exact hcomp ed' h' hcond
          · simp only [List.mem_singleton] at h'
            subst ed'
            rw [hget]
            rfl

end Cpy

namespace Cpy

theorem updateFold_inv (ds : PathStr → DestState) :
    ∀ (l processed : List EntryData) (best : List (PathStr × Candidate)),
      UpdateInv ds processed best →
      UpdateInv ds (processed ++ l) (l.foldl (updateStep ds) best) := by
  intro l
  induction l with
  | nil =>
    intro processed best h
    rw [List.append_nil]
    exact h
  | cons ed l' ih =>
    intro processed best h
    have h1 : UpdateInv ds (processed ++ [ed]) (updateStep ds best ed) := by
      by_cases hds : ds ed.resolvedDestinationPath = .nonFile
      · exact updateStep_inv_nonFile ds processed best ed h hds
      · rw [updateStep_eq_general ds best ed hds]
        exact updateStepGeneral_inv ds processed best ed h hds
    have h2 := ih (processed ++ [ed]) (updateStep ds best ed) h1
    rw [List.append_cons]
    exact h2

theorem updateFilter_inv (rp : Entry → ResolvedPaths) (ss : PathStr → Stats)
    (ds : PathStr → DestState) (entries : List Entry) :
    UpdateInv ds (entryDataList rp ss entries)
      ((entryDataList rp ss entries).foldl (updateStep ds) []) := by
  have h0 : UpdateInv ds [] [] :=
    ⟨fun kc h => absurd h (List.not_mem_nil kc), List.nodup_nil,
      fun ed h _ => absurd h (List.not_mem_nil ed)⟩
  have h1 := updateFold_inv ds (entryDataList rp ss entries) [] [] h0
  rw [List.nil_append] at h1
  exact h1

theorem mem_entryDataList (rp : Entry → ResolvedPaths) (ss : PathStr → Stats)
    (entries : List Entry) (ed : EntryData) (h : ed ∈ entryDataList rp ss entries) :
    ed.entry ∈ entries ∧
    ed.resolvedDestinationPath = (rp ed.entry).resolvedDestinationPath ∧
    ed.sourceStats = ss ed.entry.path ∧ (ed.index, ed.entry) ∈ entries.enum := by
  obtain ⟨ie, hie, hed⟩ := List.mem_map.mp h
  subst hed
  exact ⟨List.snd_mem_of_mem_enum hie, rfl, rfl, by simpa using hie⟩

theorem entryData_of_enum (rp : Entry → ResolvedPaths) (ss : PathStr → Stats)
    (entries : List Entry) (i : ℕ) (e : Entry) (h : (i, e) ∈ entries.enum) :
    (⟨e, (rp e).destinationPath, (rp e).resolvedDestinationPath, i, ss e.path⟩ : EntryData)
      ∈ entryDataList rp ss entries :=
  List.mem_map.mpr ⟨(i, e), h, rfl⟩

theorem mem_updateFilter_best (rp : Entry → ResolvedPaths) (ss : PathStr → Stats)
    (ds : PathStr → DestState) (entries : List Entry) (e : Entry)
    (he : e ∈ updateFilter rp ss ds entries) :
    ∃ kc ∈ (entryDataList rp ss entries).foldl (updateStep ds) [], kc.2.entry = e := by
  simp only [updateFilter] at he
  obtain ⟨hee, hsel⟩ := List.mem_filter.mp he
  obtain ⟨kc, hkc, hkce⟩ := List.mem_map.mp (List.mem_of_elem_eq_true hsel)
  exact ⟨kc, hkc, hkce⟩

end Cpy

namespace Cpy

/-- C9 (amended): gating — `shouldUseUpdate` holds exactly when
`update` is set, `overwrite` is not `false` and `ignoreExisting` is not
set; soundness — an entry surviving the update filter either satisfies
the copy condition (destination absent, source strictly newer, or equal
mtime with differing size) OR maps to a non-file destination (the
`registerNonFileCandidate` branch, which the original claim omits and
the counterexample exhibits); uniqueness — two distinct surviving
entries never share a resolved destination; maximality — a surviving
entry of a file-or-absent destination carries the greatest source
mtime among the `shouldCopy` competitors for its destination, with the
largest list position on ties. -/
theorem claim_C9 (o : Options) (rp : Entry → ResolvedPaths) (ss : PathStr → Stats)
    (ds : PathStr → DestState) (entries : List Entry) :
    ((normalizeOptions o).2.2 = true ↔
      (o.update = true ∧ o.overwrite ≠ some false ∧ o.ignoreExisting = false)) ∧
    (∀ e ∈ updateFilter rp ss ds entries,
      shouldCopyUpdate (ss e.path) (ds (rp e).resolvedDestinationPath) = true ∨
        ds (rp e).resolvedDestinationPath = .nonFile) ∧
    (∀ e1 ∈ updateFilter rp ss ds entries, ∀ e2 ∈ updateFilter rp ss ds entries,
      e1 ≠ e2 → (rp e1).resolvedDestinationPath ≠ (rp e2).resolvedDestinationPath) ∧
    (∀ e ∈ updateFilter rp ss ds entries,
      ds (rp e).resolvedDestinationPath ≠ .nonFile →
      ∃ i, (i, e) ∈ entries.enum ∧
        ∀ i2 e2, (i2, e2) ∈ entries.enum →
          (rp e2).resolvedDestinationPath = (rp e).resolvedDestinationPath →
          shouldCopyUpdate (ss e2.path) (ds (rp e).resolvedDestinationPath) = true →
          ((ss e2.path).mtimeMs < (ss e.path).mtimeMs ∨
            ((ss e2.path).mtimeMs = (ss e.path).mtimeMs ∧ i2 ≤ i))) := by
  obtain ⟨hokAll, hndB, hcompB⟩ := updateFilter_inv rp ss ds entries
  refine ⟨?_, ?_, ?_, ?_⟩
  · cases hie : o.ignoreExisting <;> simp [normalizeOptions, hie]
  · intro e he
    obtain ⟨kc, hkc, hkce⟩ := mem_updateFilter_best rp ss ds entries e he
    obtain ⟨hok1, hdom1⟩ := hokAll kc hkc
    obtain ⟨ed, hed, hkey, hent, hidx, hcase⟩ := hok1
    obtain ⟨hee', hres, hss, henum⟩ := mem_entryDataList rp ss entries ed hed
    have he2 : ed.entry = e := by rw [hent] at hkce; exact hkce
    rcases hcase with ⟨m, hm, hmeq, hscv⟩ | ⟨hm, hnf⟩
    · left
      rw [← hkey] at hscv
      rw [hss, hres, he2] at hscv
      exact hscv
    · right
      rw [← hkey] at hnf
      rw [hres, he2] at hnf
      exact hnf
  · intro e1 he1 e2 he2 hne heqd
    obtain ⟨kc1, hkc1, hkce1⟩ := mem_updateFilter_best rp ss ds entries e1 he1
    obtain ⟨kc2, hkc2, hkce2⟩ := mem_updateFilter_best rp ss ds entries e2 he2
    obtain ⟨hok1, _⟩ := hokAll kc1 hkc1
    obtain ⟨hok2, _⟩ := hokAll kc2 hkc2
    obtain ⟨ed1, hed1, hkey1, hent1, _, _⟩ := hok1
    obtain ⟨ed2, hed2, hkey2, hent2, _, _⟩ := hok2
    obtain ⟨_, hres1, _, _⟩ := mem_entryDataList rp ss entries ed1 hed1
    obtain ⟨_, hres2, _, _⟩ := mem_entryDataList rp ss entries ed2 hed2
    have he2a : ed1.entry = e1 := by rw [hent1] at hkce1; exact hkce1
    have he2b : ed2.entry = e2 := by rw [hent2] at hkce2; exact hkce2
    have hk12 : kc1.1 = kc2.1 := by
      rw [← hkey1, ← hkey2, hres1, hres2, he2a, he2b, heqd]
    have hg1 := candGet_of_mem_nodup _ hndB kc1 hkc1
    have hg2 := candGet_of_mem_nodup _ hndB kc2 hkc2
    rw [hk12] at hg1
    rw [hg2] at hg1
    injection hg1 with hg1
    apply hne
    rw [← hkce1, ← hkce2, hg1]
  · intro e he hnf
    obtain ⟨kc, hkc, hkce⟩ := mem_updateFilter_best rp ss ds entries e he
    obtain ⟨hok1, hdom1⟩ := hokAll kc hkc
    obtain ⟨ed, hed, hkey, hent, hidx, hcase⟩ := hok1
    obtain ⟨hee', hres, hss, henum⟩ := mem_entryDataList rp ss entries ed hed
    have he2 : ed.entry = e := by rw [hent] at hkce; exact hkce
    have hkck : kc.1 = (rp e).resolvedDestinationPath := by
      rw [← hkey, hres, he2]
    rcases hcase with ⟨m, hm, hmeq, hscv⟩ | ⟨hm, hnfk⟩
    · refine ⟨kc.2.index, ?_, ?_⟩
      · rw [hidx, ← he2]
        exact henum
      · intro i2 e2 h2enum h2res h2sc
        have hed2 := entryData_of_enum rp ss entries i2 e2 h2enum
        have hdomx := hdom1 _ hed2 (by rw [← hkck] at h2res; exact h2res)
          (by rw [hkck]; exact h2sc)
        obtain ⟨m', hm', hcmp⟩ := hdomx
        rw [hm] at hm'
        injection hm' with hmm
        subst hmm
        have hme : m = (ss e.path).mtimeMs := by
          rw [hmeq, hss, he2]
        rw [hme] at hcmp
        exact hcmp
    · exfalso
      rw [← hkey, hres, he2] at hnfk
      exact hnf hnfk

end Cpy

namespace Cpy

/-- C9 (counterexample to the claim as stated): with a single entry
whose resolved destination is a non-file (e.g. an existing directory),
the update filter keeps the entry — it will be copied — although the
claimed copy condition (destination absent, or source newer, or equal
mtime with different size) is false: `registerNonFileCandidate`
registers the first entry for a non-file destination unconditionally. -/
theorem claim_C9_counterexample :
    updateFilter (fun _ => ⟨["", "cw", "d"], ["", "cw", "d"]⟩) (fun _ => ⟨0, 0⟩)
        (fun _ => DestState.nonFile) [literalEntry] = [literalEntry] ∧
    shouldCopyUpdate ⟨0, 0⟩ DestState.nonFile = false := ⟨rfl, rfl⟩

/-- Options with cwd `/cw` and `update: true`. -/
def c9opts : Options := { cwd := ["", "cw"], update := true }

/-- Entry `/cw/a1.txt`, source mtime 1. -/
def c9e1 : Entry :=
  { path := ["", "cw", "a1.txt"], relativePath := ["a1.txt"], pattern := literalPattern }

/-- Entry `/cw/a2.txt`, source mtime 2. -/
def c9e2 : Entry :=
  { path := ["", "cw", "a2.txt"], relativePath := ["a2.txt"], pattern := literalPattern }

/-- Both entries map to the same destination `/cw/d`. -/
def c9rp : Entry → ResolvedPaths := fun _ => ⟨["", "cw", "d"], ["", "cw", "d"]⟩

/-- Source stats: `a1.txt` has mtime 1, everything else mtime 2. -/
def c9ss : PathStr → Stats := fun p => if p = c9e1.path then ⟨1, 10⟩ else ⟨2, 10⟩

/-- The destination does not exist. -/
def c9ds : PathStr → DestState := fun _ => DestState.absent

theorem claim_C9_witness :
    (normalizeOptions c9opts).2.2 = true ∧
    (shouldCopyUpdate (c9ss c9e2.path) (c9ds (c9rp c9e2).resolvedDestinationPath) = true ∨
      c9ds (c9rp c9e2).resolvedDestinationPath = .nonFile) ∧
    (c9rp c9e1).resolvedDestinationPath = (c9rp c9e2).resolvedDestinationPath ∧
    updateFilter c9rp c9ss c9ds [c9e1, c9e2] = [c9e2] := by
  refine ⟨(claim_C9 c9opts c9rp c9ss c9ds [c9e1, c9e2]).1.mpr ⟨rfl, by decide, rfl⟩,
    (claim_C9 c9opts c9rp c9ss c9ds [c9e1, c9e2]).2.1 c9e2 (by decide), rfl, by decide⟩

end Cpy
